import Mathlib

/-!
Verification of the agconf synchronization engine against its specification.

The engine's pure core is embedded shallowly: strings of the program are
Lean strings, JavaScript objects are insertion-ordered association lists,
machine words of the hash are naturals reduced mod 2^32, fallible
operations return Option or Except, and the filesystem is passed in as an
explicit outcome value.  Multi-line text is modelled as its list of lines
(the join with a newline is injective on newline-free lines), matching the
line-oriented marker and frontmatter algorithms of the program.
-/

namespace Agconf

/-! ## Generic list helpers -/

/-- Split a list at the first occurrence of an element: returns the part
before it and the part after it, or none when the element is absent. -/
def splitFirst {α : Type} [DecidableEq α] (x : α) : List α → Option (List α × List α)
  | [] => none
  | a :: as =>
    if a = x then some ([], as)
    else
      match splitFirst x as with
      | none => none
      | some (pre, post) => some (a :: pre, post)

theorem splitFirst_append {α : Type} [DecidableEq α] (x : α) (pre post : List α)
    (hx : x ∉ pre) : splitFirst x (pre ++ x :: post) = some (pre, post) := by
  induction pre with
  | nil => simp [splitFirst]
  | cons a as ih =>
    have hax : ¬ a = x := by
      intro h; exact hx (by simp [h])
    have has : x ∉ as := fun h => hx (List.mem_cons_of_mem _ h)
    simp [splitFirst, hax, ih has]

theorem splitFirst_eq_none {α : Type} [DecidableEq α] (x : α) (l : List α)
    (hx : x ∉ l) : splitFirst x l = none := by
  induction l with
  | nil => rfl
  | cons a as ih =>
    have hax : ¬ a = x := by
      intro h; exact hx (by simp [h])
    have has : x ∉ as := fun h => hx (List.mem_cons_of_mem _ h)
    simp [splitFirst, hax, ih has]

/-! ## JavaScript object model

A JavaScript object is an insertion-ordered association list with unique
keys.  Property assignment updates an existing key in place and otherwise
appends; property deletion removes the key. -/

/-- JS property assignment: update the first matching key in place,
append at the end when absent. -/
def jsSet {κ α : Type} [DecidableEq κ] (l : List (κ × α)) (k : κ) (v : α) : List (κ × α) :=
  match l with
  | [] => [(k, v)]
  | (k', v') :: rest =>
    if k' = k then (k, v) :: rest
    else (k', v') :: jsSet rest k v

/-- JS property deletion: remove every binding of the key. -/
def jsErase {κ α : Type} [DecidableEq κ] (l : List (κ × α)) (k : κ) : List (κ × α) :=
  match l with
  | [] => []
  | (k', v) :: rest => if k' = k then jsErase rest k else (k', v) :: jsErase rest k

/-- JS property lookup. -/
def jsGet {κ α : Type} [DecidableEq κ] (l : List (κ × α)) (k : κ) : Option α :=
  match l with
  | [] => none
  | (k', v) :: rest => if k' = k then some v else jsGet rest k

theorem jsGet_jsSet_ne {κ α : Type} [DecidableEq κ] (l : List (κ × α)) (k k' : κ) (v : α)
    (h : k' ≠ k) : jsGet (jsSet l k v) k' = jsGet l k' := by
  induction l with
  | nil =>
    simp only [jsSet, jsGet]
    rw [if_neg (fun hh => h hh.symm)]
  | cons a rest ih =>
    rcases a with ⟨k0, v0⟩
    by_cases h1 : k0 = k
    · subst h1
      simp only [jsSet, if_pos rfl, jsGet]
      rw [if_neg (fun hh => h hh.symm), if_neg (fun hh => h hh.symm)]
    · simp only [jsSet, if_neg h1, jsGet]
      by_cases h2 : k0 = k'
      · rw [if_pos h2, if_pos h2]
      · rw [if_neg h2, if_neg h2, ih]

theorem jsGet_jsSet_self {κ α : Type} [DecidableEq κ] (l : List (κ × α)) (k : κ) (v : α) :
    jsGet (jsSet l k v) k = some v := by
  induction l with
  | nil => simp [jsSet, jsGet]
  | cons a rest ih =>
    rcases a with ⟨k0, v0⟩
    by_cases h1 : k0 = k
    · simp [jsSet, jsGet, h1]
    · simp only [jsSet, if_neg h1, jsGet]
      exact ih

theorem jsErase_jsSet {κ α : Type} [DecidableEq κ] (l : List (κ × α)) (k : κ) (v : α) :
    jsErase (jsSet l k v) k = jsErase l k := by
  induction l with
  | nil => simp [jsSet, jsErase]
  | cons a rest ih =>
    rcases a with ⟨k0, v0⟩
    by_cases h1 : k0 = k
    · simp [jsSet, jsErase, h1]
    · simp only [jsSet, if_neg h1, jsErase, if_neg h1]
      rw [ih]

theorem jsErase_jsSet_ne {κ α : Type} [DecidableEq κ] (l : List (κ × α)) (k k' : κ) (v : α)
    (h : k ≠ k') : jsErase (jsSet l k v) k' = jsSet (jsErase l k') k v := by
  induction l with
  | nil => simp [jsSet, jsErase, h]
  | cons a rest ih =>
    rcases a with ⟨k0, v0⟩
    by_cases h1 : k0 = k
    · subst h1
      have h2 : ¬ k0 = k' := h
      simp [jsSet, jsErase, h2]
    · by_cases h2 : k0 = k'
      · simp only [jsSet, if_neg h1, jsErase, if_pos h2]
        exact ih
      · simp only [jsSet, if_neg h1, jsErase, if_neg h2]
        rw [ih]

/-- Setting a key to the value it already has (looked up by jsGet) is the
identity. -/
theorem jsSet_eq_self {κ α : Type} [DecidableEq κ] (l : List (κ × α)) (k : κ) (v : α)
    (h : jsGet l k = some v) : jsSet l k v = l := by
  induction l with
  | nil => simp [jsGet] at h
  | cons a rest ih =>
    rcases a with ⟨k0, v0⟩
    by_cases h1 : k0 = k
    · subst h1
      simp [jsGet] at h
      simp [jsSet, h]
    · simp only [jsGet, if_neg h1] at h
      simp only [jsSet, if_neg h1]
      rw [ih h]

/-! ## SHA-256

Executable embedding of the SHA-256 function that the program invokes
through the platform's createHash("sha256").  Words are naturals reduced
mod 2^32, the message is a list of byte values. -/

/-- The word modulus 2^32. -/
def w32 : Nat := 4294967296

/-- Right rotation of a 32-bit word. -/
def rotr32 (n x : Nat) : Nat :=
  (x / 2 ^ n + (x % 2 ^ n) * 2 ^ (32 - n)) % w32

/-- Bitwise complement of a 32-bit word. -/
def not32 (x : Nat) : Nat := x ^^^ (w32 - 1)

def ch32 (x y z : Nat) : Nat := (x &&& y) ^^^ (not32 x &&& z)

def maj32 (x y z : Nat) : Nat := (x &&& y) ^^^ (x &&& z) ^^^ (y &&& z)

def bigSigma0 (x : Nat) : Nat := rotr32 2 x ^^^ rotr32 13 x ^^^ rotr32 22 x

def bigSigma1 (x : Nat) : Nat := rotr32 6 x ^^^ rotr32 11 x ^^^ rotr32 25 x

def smallSigma0 (x : Nat) : Nat := rotr32 7 x ^^^ rotr32 18 x ^^^ x / 2 ^ 3

def smallSigma1 (x : Nat) : Nat := rotr32 17 x ^^^ rotr32 19 x ^^^ x / 2 ^ 10

/-- The eight 32-bit words of a SHA-256 state. -/
structure Sha256State where
  s0 : Nat
  s1 : Nat
  s2 : Nat
  s3 : Nat
  s4 : Nat
  s5 : Nat
  s6 : Nat
  s7 : Nat
deriving DecidableEq

/-- SHA-256 initial hash value (the eight fractional square-root words,
in decimal). -/
def sha256Init : Sha256State :=
  ⟨1779033703, 3144134277, 1013904242, 2773480762,
   1359893119, 2600822924, 528734635, 1541459225⟩

/-- SHA-256 round constants (the 64 fractional cube-root words, in
decimal). -/
def sha256K : List Nat :=
  [1116352408, 1899447441, 3049323471, 3921009573, 961987163, 1508970993,
   2453635748, 2870763221, 3624381080, 310598401, 607225278, 1426881987,
   1925078388, 2162078206, 2614888103, 3248222580, 3835390401, 4022224774,
   264347078, 604807628, 770255983, 1249150122, 1555081692, 1996064986,
   2554220882, 2821834349, 2952996808, 3210313671, 3336571891, 3584528711,
   113926993, 338241895, 666307205, 773529912, 1294757372, 1396182291,
   1695183700, 1986661051, 2177026350, 2456956037, 2730485921, 2820302411,
   3259730800, 3345764771, 3516065817, 3600352804, 4094571909, 275423344,
   430227734, 506948616, 659060556, 883997877, 958139571, 1322822218,
   1537002063, 1747873779, 1955562222, 2024104815, 2227730452, 2361852424,
   2428436474, 2756734187, 3204031479, 3329325298]

/-- Extend a 16-word message block, appending the given number of further
schedule words. -/
def extendWs (ws : List Nat) : Nat → List Nat
  | 0 => ws
  | n + 1 =>
    let k := ws.length
    let w := (smallSigma1 (ws.getD (k - 2) 0) + ws.getD (k - 7) 0 +
              smallSigma0 (ws.getD (k - 15) 0) + ws.getD (k - 16) 0) % w32
    extendWs (ws ++ [w]) n

/-- One compression round. -/
def sha256Round (s : Sha256State) (k w : Nat) : Sha256State :=
  let t1 := (s.s7 + bigSigma1 s.s4 + ch32 s.s4 s.s5 s.s6 + k + w) % w32
  let t2 := (bigSigma0 s.s0 + maj32 s.s0 s.s1 s.s2) % w32
  ⟨(t1 + t2) % w32, s.s0, s.s1, s.s2, (s.s3 + t1) % w32, s.s4, s.s5, s.s6⟩

/-- Componentwise addition of states mod 2^32. -/
def addStates (a b : Sha256State) : Sha256State :=
  ⟨(a.s0 + b.s0) % w32, (a.s1 + b.s1) % w32, (a.s2 + b.s2) % w32, (a.s3 + b.s3) % w32,
   (a.s4 + b.s4) % w32, (a.s5 + b.s5) % w32, (a.s6 + b.s6) % w32, (a.s7 + b.s7) % w32⟩

/-- Compress one 16-word block into the running state. -/
def compressBlock (st : Sha256State) (block : List Nat) : Sha256State :=
  let ws := extendWs block 48
  let final := (List.zip sha256K ws).foldl (fun s kw => sha256Round s kw.1 kw.2) st
  addStates st final

/-- Big-endian byte decomposition of a 64-bit length. -/
def be64 (n : Nat) : List Nat :=
  [n / 2 ^ 56 % 256, n / 2 ^ 48 % 256, n / 2 ^ 40 % 256, n / 2 ^ 32 % 256,
   n / 2 ^ 24 % 256, n / 2 ^ 16 % 256, n / 2 ^ 8 % 256, n % 256]

/-- SHA-256 padding: a 0x80 byte, zeros to 56 mod 64, then the bit length. -/
def sha256Pad (msg : List Nat) : List Nat :=
  let padZeros := (119 - msg.length % 64) % 64
  msg ++ [0x80] ++ List.replicate padZeros 0 ++ be64 (8 * msg.length)

/-- Group bytes into big-endian 32-bit words. -/
def bytesToWords : List Nat → List Nat
  | b0 :: b1 :: b2 :: b3 :: rest =>
    (b0 % 256 * 2 ^ 24 + b1 % 256 * 2 ^ 16 + b2 % 256 * 2 ^ 8 + b3 % 256) :: bytesToWords rest
  | _ => []

/-- Group a word list into 16-word blocks; structural recursion on a fuel
that bounds the word count. -/
def chunk16F : Nat → List Nat → List (List Nat)
  | _, [] => []
  | 0, _ :: _ => []
  | fuel + 1, a :: rest => (a :: rest.take 15) :: chunk16F fuel (rest.drop 15)

/-- Group a word list into 16-word blocks. -/
def chunk16 (ws : List Nat) : List (List Nat) := chunk16F ws.length ws

/-- The SHA-256 digest of a byte message, as eight words. -/
def sha256Digest (msg : List Nat) : Sha256State :=
  (chunk16 (bytesToWords (sha256Pad msg))).foldl compressBlock sha256Init

/-- The sixteen lowercase hex digit characters. -/
def hexDigits : List Char := "0123456789abcdef".data

/-- Lowercase hex digit of a nibble. -/
def hexChar (n : Nat) : Char :=
  match n % 16 with
  | 0 => '0' | 1 => '1' | 2 => '2' | 3 => '3'
  | 4 => '4' | 5 => '5' | 6 => '6' | 7 => '7'
  | 8 => '8' | 9 => '9' | 10 => 'a' | 11 => 'b'
  | 12 => 'c' | 13 => 'd' | 14 => 'e' | _ => 'f'

theorem hexChar_mem (n : Nat) : hexChar n ∈ hexDigits := by
  unfold hexChar
  split <;> decide

/-- Eight hex characters of a 32-bit word, most significant nibble first. -/
def wordHex (w : Nat) : List Char :=
  [hexChar (w / 2 ^ 28), hexChar (w / 2 ^ 24), hexChar (w / 2 ^ 20), hexChar (w / 2 ^ 16),
   hexChar (w / 2 ^ 12), hexChar (w / 2 ^ 8), hexChar (w / 2 ^ 4), hexChar w]

/-- The 64 hex characters of a SHA-256 digest. -/
def digestHexChars (s : Sha256State) : List Char :=
  wordHex s.s0 ++ wordHex s.s1 ++ wordHex s.s2 ++ wordHex s.s3 ++
  wordHex s.s4 ++ wordHex s.s5 ++ wordHex s.s6 ++ wordHex s.s7

/-- UTF-8 bytes of one character. -/
def utf8Char (c : Char) : List Nat :=
  let n := c.toNat
  if n < 128 then [n]
  else if n < 2048 then [192 + n / 64, 128 + n % 64]
  else if n < 65536 then [224 + n / 4096, 128 + n / 64 % 64, 128 + n % 64]
  else [240 + n / 262144, 128 + n / 4096 % 64, 128 + n / 64 % 64, 128 + n % 64]

/-- UTF-8 bytes of a string. -/
def strBytes (s : String) : List Nat := (s.data.map utf8Char).flatten

/-- Lowercase hex SHA-256 digest of a string, as the hash library returns it. -/
def sha256Hex (s : String) : String :=
  String.mk (digestHexChars (sha256Digest (strBytes s)))

/-- Embeds hashContent of src/cli/src/core/source.ts: sha256 hex digest of
the content, truncated to 12 characters, behind the "sha256:" tag. -/
def hashContent (content : String) : String :=
  String.mk ("sha256:".data ++ (digestHexChars (sha256Digest (strBytes content))).take 12)

theorem digestHexChars_length (s : Sha256State) : (digestHexChars s).length = 64 := by
  simp [digestHexChars, wordHex]

/-! ## Source provenance

Embeds the Source discriminated union of src/cli/src/schemas/lockfile.ts,
as declared in src/cli/src/plugins/providers/types.ts: a github source
carries repository, commit sha and ref; a local source carries a path and
an optional commit sha.  The constructor of the local variant is named
localSrc because the identifier of the program is a keyword here. -/

inductive Source where
  | github (repository : String) (commit_sha : String) (ref : String)
  | localSrc (path : String) (commit_sha : Option String)
deriving DecidableEq

/-- Embeds formatSourceString of src/cli/src/core/source.ts.  The slice to
seven characters is String.take; the emptiness test on the optional local
commit sha mirrors JS truthiness, under which an empty string is falsy. -/
def formatSourceStringCore (source : Source) : String :=
  match source with
  | .github repository commit_sha _ =>
    "github:" ++ repository ++ "@" ++ String.mk (commit_sha.data.take 7)
  | .localSrc path commit_sha =>
    match commit_sha with
    | some sha =>
      if sha = "" then "local:" ++ path
      else "local:" ++ path ++ "@" ++ String.mk (sha.data.take 7)
    | none => "local:" ++ path

/-- Embeds formatSourceString of src/cli/src/plugins/providers/types.ts,
the second, independent implementation over the same source shape. -/
def formatSourceStringPlugins (source : Source) : String :=
  match source with
  | .github repository commit_sha _ =>
    "github:" ++ repository ++ "@" ++ String.mk (commit_sha.data.take 7)
  | .localSrc path commit_sha =>
    match commit_sha with
    | some sha =>
      if sha = "" then "local:" ++ path
      else "local:" ++ path ++ "@" ++ String.mk (sha.data.take 7)
    | none => "local:" ++ path

/-- The format stated by the claim, written from its words: github sources
render as github:repository@sha7, local sources with a (non-empty) sha as
local:path@sha7, and other local sources as local:path. -/
def claimedSourceFormat (source : Source) : String :=
  match source with
  | .github repository commit_sha _ =>
    "github:" ++ repository ++ "@" ++ String.mk (commit_sha.data.take 7)
  | .localSrc path (some sha) =>
    if sha = "" then "local:" ++ path
    else "local:" ++ path ++ "@" ++ String.mk (sha.data.take 7)
  | .localSrc path none => "local:" ++ path

/-! ## Target adapter registry

Embeds the static target registry: TARGET_CONFIGS (the core map of
src/unnamed/part_012), and the richer plugin target agents of
src/cli/src/plugins/targets/claude.ts and src/unnamed/part_013. -/

/-- The closed set of target names (SUPPORTED_TARGETS). -/
inductive TargetName where
  | claude
  | codex
deriving DecidableEq

def SUPPORTED_TARGETS : List TargetName := [TargetName.claude, TargetName.codex]

/-- Core TargetConfig: directory plus optional instructions file name. -/
structure TargetConfigCore where
  dir : String
  instructionsFile : Option String
deriving DecidableEq

/-- Embeds TARGET_CONFIGS of src/unnamed/part_012. -/
def TARGET_CONFIGS : TargetName → TargetConfigCore
  | .claude => { dir := ".claude", instructionsFile := some "CLAUDE.md" }
  | .codex => { dir := ".codex", instructionsFile := none }

/-- Plugin TargetCapabilities of src/cli/src/plugins/targets/types.ts. -/
structure TargetCapabilities where
  skills : Bool
  subAgents : Bool
  hooks : Bool
  fileReferences : Bool
  instructionsFile : Bool
deriving DecidableEq

/-- Plugin TargetConfig of src/cli/src/plugins/targets/types.ts. -/
structure TargetConfigPlugin where
  dir : String
  instructionsFile : Option String
  instructionsContent : Option String
deriving DecidableEq

/-- Plugin TargetAgent of src/cli/src/plugins/targets/types.ts. -/
structure TargetAgent where
  name : String
  config : TargetConfigPlugin
  capabilities : TargetCapabilities
deriving DecidableEq

/-- Embeds claudeTarget of src/cli/src/plugins/targets/claude.ts. -/
def claudeTarget : TargetAgent :=
  { name := "claude",
    config := { dir := ".claude", instructionsFile := some "CLAUDE.md",
                instructionsContent := some "@../AGENTS.md" },
    capabilities := { skills := true, subAgents := true, hooks := true,
                      fileReferences := true, instructionsFile := true } }

/-- Embeds codexTarget of src/unnamed/part_013. -/
def codexTarget : TargetAgent :=
  { name := "codex",
    config := { dir := ".codex", instructionsFile := none, instructionsContent := none },
    capabilities := { skills := true, subAgents := false, hooks := true,
                      fileReferences := false, instructionsFile := false } }

/-- File name of the root instructions document (instructions/AGENTS.md in
src/cli/src/core/source.ts). -/
def rootInstructionsDoc : String := "AGENTS.md"

/-! ## Lockfile store -/

/-- Lockfile record persisted at .agent-conf/lockfile.json, with the
fields of the spec's data model; content.agents_md is flattened into the
two agents_md fields. -/
structure Lockfile where
  version : String
  pinned_version : Option String
  synced_at : String
  source : Source
  agents_md_global_block_hash : String
  agents_md_merged : Bool
  skills : List String
  targets : List String
  markerPfx : Option String
  cli_version : String
deriving DecidableEq

structure VersionMismatch where
  currentVersion : String
  lockfileVersion : String
deriving DecidableEq

/-- JS String.split on the dot character, over the character list. -/
def splitDot : List Char → List (List Char)
  | [] => [[]]
  | c :: rest =>
    let r := splitDot rest
    if c = '.' then [] :: r
    else
      match r with
      | [] => [[c]]
      | h :: t => (c :: h) :: t

/-- Number(component) under the falsy-or of the program: a decimal digit
string evaluates to its value, everything else (which Number maps to NaN,
a falsy value) and the empty string contribute 0. -/
def toNumOr0 (s : List Char) : Nat :=
  if s.all (fun c => c.isDigit) then
    s.foldl (fun a c => a * 10 + (c.toNat - 48)) 0
  else 0

/-- The i-th semver component of a split version, missing entries 0. -/
def versionComponent (parts : List (List Char)) (i : Nat) : Nat :=
  toNumOr0 (parts.getD i [])

/-- Embeds checkCliVersionMismatch of src/cli/src/core/source.ts with the
lockfile read outcome and the current tool version passed in explicitly;
the three-iteration comparison loop is unrolled. -/
def checkCliVersionMismatch (lockfile : Option Lockfile) (currentVersion : String) :
    Option VersionMismatch :=
  match lockfile with
  | none => none
  | some lf =>
    let lockfileVersion := lf.cli_version
    if currentVersion = "" ∨ lockfileVersion = "" then none
    else
      let cur := splitDot currentVersion.data
      let lok := splitDot lockfileVersion.data
      if versionComponent lok 0 > versionComponent cur 0 then
        some ⟨currentVersion, lockfileVersion⟩
      else if versionComponent cur 0 > versionComponent lok 0 then none
      else if versionComponent lok 1 > versionComponent cur 1 then
        some ⟨currentVersion, lockfileVersion⟩
      else if versionComponent cur 1 > versionComponent lok 1 then none
      else if versionComponent lok 2 > versionComponent cur 2 then
        some ⟨currentVersion, lockfileVersion⟩
      else none

/-- Triplet-wise strict greater-than of semver strings, as the claim
states it: lexicographic on (major, minor, patch) with missing components
treated as 0. -/
def verTripletGT (a b : String) : Prop :=
  let x := fun i => versionComponent (splitDot a.data) i
  let y := fun i => versionComponent (splitDot b.data) i
  x 0 > y 0 ∨ (x 0 = y 0 ∧ (x 1 > y 1 ∨ (x 1 = y 1 ∧ x 2 > y 2)))

instance (a b : String) : Decidable (verTripletGT a b) := by
  unfold verTripletGT
  exact inferInstance

/-! ## Lockfile reading -/

/-- JSON values, as JSON.parse would deliver them. -/
inductive Json where
  | null
  | bool (b : Bool)
  | num (n : Int)
  | str (s : String)
  | arr (items : List Json)
  | obj (fields : List (String × Json))

/-- Extract a required string field. -/
def jsonStrField (fields : List (String × Json)) (k : String) : Except String String :=
  match jsGet fields k with
  | some (Json.str s) => Except.ok s
  | _ => Except.error (k ++ ": expected string")

/-- Extract an optional string field. -/
def jsonOptStrField (fields : List (String × Json)) (k : String) :
    Except String (Option String) :=
  match jsGet fields k with
  | none => Except.ok none
  | some (Json.str s) => Except.ok (some s)
  | some _ => Except.error (k ++ ": expected string")

/-- Extract a required boolean field. -/
def jsonBoolField (fields : List (String × Json)) (k : String) : Except String Bool :=
  match jsGet fields k with
  | some (Json.bool b) => Except.ok b
  | _ => Except.error (k ++ ": expected boolean")

/-- Extract a required object field. -/
def jsonObjField (fields : List (String × Json)) (k : String) :
    Except String (List (String × Json)) :=
  match jsGet fields k with
  | some (Json.obj f) => Except.ok f
  | _ => Except.error (k ++ ": expected object")

/-- Extract a required array-of-strings field. -/
def jsonStrArrField (fields : List (String × Json)) (k : String) :
    Except String (List String) :=
  match jsGet fields k with
  | some (Json.arr items) =>
    items.foldr
      (fun j acc =>
        match j, acc with
        | Json.str s, Except.ok ss => Except.ok (s :: ss)
        | _, Except.ok _ => Except.error (k ++ ": expected array of strings")
        | _, Except.error e => Except.error e)
      (Except.ok [])
  | _ => Except.error (k ++ ": expected array")

/-- Modelled from the spec: the Source branch of the zod LockfileSchema of
src/cli/src/schemas/lockfile.ts, which is not under src/; built from the
spec's data model (tagged variant local {path, optional commit sha} or
github {repository, ref, commit sha}). -/
def parseSourceJson (j : Json) : Except String Source :=
  match j with
  | Json.obj f =>
    match jsGet f "type" with
    | some (Json.str "github") => do
      let repository ← jsonStrField f "repository"
      let sha ← jsonStrField f "commit_sha"
      let ref ← jsonStrField f "ref"
      Except.ok (Source.github repository sha ref)
    | some (Json.str "local") => do
      let path ← jsonStrField f "path"
      let sha ← jsonOptStrField f "commit_sha"
      Except.ok (Source.localSrc path sha)
    | _ => Except.error "source.type: expected local or github"
  | _ => Except.error "source: expected object"

/-- Modelled from the spec: the zod LockfileSchema of
src/cli/src/schemas/lockfile.ts, which is not under src/; validates the
persisted record fields of the spec's data model and names the offending
field on failure. -/
def parseLockfileJson (j : Json) : Except String Lockfile :=
  match j with
  | Json.obj f => do
    let version ← jsonStrField f "version"
    let pinned ← jsonOptStrField f "pinned_version"
    let syncedAt ← jsonStrField f "synced_at"
    let src ← match jsGet f "source" with
      | some sj => parseSourceJson sj
      | none => Except.error "source: required"
    let content ← jsonObjField f "content"
    let agentsMd ← jsonObjField content "agents_md"
    let gbh ← jsonStrField agentsMd "global_block_hash"
    let merged ← jsonBoolField agentsMd "merged"
    let skills ← jsonStrArrField content "skills"
    let targets ← jsonStrArrField content "targets"
    let mpfx ← jsonOptStrField content "marker_prefix"
    let cliVersion ← jsonStrField f "cli_version"
    Except.ok { version := version, pinned_version := pinned, synced_at := syncedAt,
                source := src, agents_md_global_block_hash := gbh,
                agents_md_merged := merged, skills := skills, targets := targets,
                markerPfx := mpfx, cli_version := cliVersion }
  | _ => Except.error "lockfile: expected object"

/-- Outcome of reading and JSON-parsing the lockfile file: the file can be
absent (ENOENT), unreadable for another reason, or present, in which case
the platform JSON.parse either fails (found none) or yields a value. -/
inductive FsReadOutcome where
  | enoent
  | ioError (msg : String)
  | found (parsed : Option Json)

/-- Errors readLockfile can propagate. -/
inductive LockfileError where
  | ioError (msg : String)
  | syntaxError
  | schemaError (msg : String)
deriving DecidableEq

/-- Embeds readLockfile of src/cli/src/core/source.ts over the read
outcome: the catch clause converts only the ENOENT failure into a null
result and rethrows everything else, including JSON syntax errors and
schema validation errors. -/
def readLockfile (fs : FsReadOutcome) : Except LockfileError (Option Lockfile) :=
  match fs with
  | .enoent => Except.ok none
  | .ioError m => Except.error (LockfileError.ioError m)
  | .found none => Except.error LockfileError.syntaxError
  | .found (some j) =>
    match parseLockfileJson j with
    | Except.error m => Except.error (LockfileError.schemaError m)
    | Except.ok lf => Except.ok (some lf)

/-! ## Local source resolution -/

/-- What local resolution observes of the filesystem and git: whether the
canonical instructions file and the skills directory exist, and the latest
commit sha when git is available (none models a failed git log). -/
structure LocalRepoFs where
  agentsMdExists : Bool
  skillsExists : Bool
  gitLatestSha : Option String
deriving DecidableEq

/-- Embeds ResolvedSource of src/cli/src/core/source.ts. -/
structure ResolvedSource where
  source : Source
  basePath : String
  agentsMdPath : String
  skillsPath : String
deriving DecidableEq

/-- Embeds validateCanonicalRepo of src/cli/src/core/source.ts. -/
def validateCanonicalRepo (fs : LocalRepoFs) (basePath : String) : Except String Unit :=
  if fs.agentsMdExists = false then
    Except.error ("Invalid canonical repository: missing instructions/AGENTS.md at " ++ basePath)
  else if fs.skillsExists = false then
    Except.error ("Invalid canonical repository: missing skills/ directory at " ++ basePath)
  else Except.ok ()

/-- Embeds the explicit-path branch of resolveLocalSource of
src/cli/src/core/source.ts: validate the canonical layout, then record the
git commit sha opportunistically (a git failure leaves it unset and is
otherwise ignored). -/
def resolveLocalSource (fs : LocalRepoFs) (path : String) : Except String ResolvedSource :=
  match validateCanonicalRepo fs path with
  | Except.error e => Except.error e
  | Except.ok _ =>
    Except.ok { source := Source.localSrc path fs.gitLatestSha,
                basePath := path,
                agentsMdPath := path ++ "/instructions/AGENTS.md",
                skillsPath := path ++ "/skills" }

/-! ## Managed-artifact metadata codec (skill files)

Modelled from the spec: src/cli/src/core/skill-metadata.ts is not under
src/ (only its unit tests and callers are).  The spec fixes the contract:
parseFrontmatter extracts a minimal YAML-subset structure (scalars, one
level of nested maps, block arrays) and the body; addManagedMetadata
inserts or overwrites the two reserved keys under a metadata map,
preserving every other field; stripManagedMetadata removes only the
reserved keys, deleting an emptied metadata map entirely;
computeContentHash hashes the metadata-stripped content.  Content is its
list of lines; duplicate frontmatter keys are kept in order, which agrees
with the program's object semantics on the unique-key documents it
produces.  The hash is computed over the codec's canonical serialization
of the stripped document. -/

/-- One line of text, as its characters. -/
abbrev Line := List Char

/-- YAML-subset values: scalars, block arrays, one level of nested maps. -/
inductive YVal where
  | vstr (v : Line)
  | varr (items : List Line)
  | vmap (entries : List (Line × Line))
deriving DecidableEq

/-- Parsed frontmatter: insertion-ordered keyed values. -/
abbrev Frontmatter := List (Line × YVal)

/-- Word characters, as the frontmatter key pattern of the program. -/
def isWordChar (c : Char) : Bool := c.isAlphanum || c = '_'

/-- Parse a top-level yaml line: a word key followed by a colon, with
either an empty value (opening a nested block) or a scalar value after
one space. -/
def parseKeyLine (l : Line) : Option (Line × Option Line) :=
  match splitFirst ':' l with
  | none => none
  | some (k, rest) =>
    if k ≠ [] ∧ k.all isWordChar then
      match rest with
      | [] => some (k, none)
      | ' ' :: v => some (k, some v)
      | _ => none
    else none

/-- A block array item line: two spaces, a dash, a space, the item. -/
def isArrayItemLine (l : Line) : Bool :=
  decide (l.take 4 = [' ', ' ', '-', ' '])

/-- The item carried by a block array item line. -/
def arrayItemVal (l : Line) : Line := l.drop 4

/-- A nested map entry line: two spaces then a key-value line. -/
def parseNestedKV (l : Line) : Option (Line × Line) :=
  if l.take 2 = [' ', ' '] then
    match parseKeyLine (l.drop 2) with
    | some (k, some v) => some (k, v)
    | _ => none
  else none

/-- Collect leading block array item lines. -/
def takeArrayItems : List Line → (List Line × List Line)
  | [] => ([], [])
  | l :: rest =>
    if isArrayItemLine l then
      let r := takeArrayItems rest
      (arrayItemVal l :: r.1, r.2)
    else ([], l :: rest)

/-- Collect leading nested map entry lines. -/
def takeMapEntries : List Line → (List (Line × Line) × List Line)
  | [] => ([], [])
  | l :: rest =>
    match parseNestedKV l with
    | some kv =>
      let r := takeMapEntries rest
      (kv :: r.1, r.2)
    | none => ([], l :: rest)

theorem takeArrayItems_length (ls : List Line) : (takeArrayItems ls).2.length ≤ ls.length := by
  induction ls with
  | nil => simp [takeArrayItems]
  | cons l rest ih =>
    by_cases h : isArrayItemLine l
    · simp only [takeArrayItems, if_pos h]
      exact Nat.le_succ_of_le ih
    · simp [takeArrayItems, if_neg h]

theorem takeMapEntries_length (ls : List Line) : (takeMapEntries ls).2.length ≤ ls.length := by
  induction ls with
  | nil => simp [takeMapEntries]
  | cons l rest ih =>
    rcases h : parseNestedKV l with _ | kv
    · simp [takeMapEntries, h]
    · simp only [takeMapEntries, h]
      exact Nat.le_succ_of_le ih

/-- Whether the next line opens a block array. -/
def nextIsArray : List Line → Bool
  | [] => false
  | l :: _ => isArrayItemLine l

/-- Parse the yaml lines of a frontmatter block, skipping lines that match
no production; structural recursion on a fuel that bounds the line count. -/
def parseYamlLinesF : Nat → List Line → Frontmatter
  | _, [] => []
  | 0, _ :: _ => []
  | fuel + 1, l :: rest =>
    match parseKeyLine l with
    | some (k, some v) => (k, YVal.vstr v) :: parseYamlLinesF fuel rest
    | some (k, none) =>
      if nextIsArray rest then
        (k, YVal.varr (takeArrayItems rest).1) :: parseYamlLinesF fuel (takeArrayItems rest).2
      else
        (k, YVal.vmap (takeMapEntries rest).1) :: parseYamlLinesF fuel (takeMapEntries rest).2
    | none => parseYamlLinesF fuel rest

/-- Parse the yaml lines of a frontmatter block. -/
def parseYamlLines (ls : List Line) : Frontmatter :=
  parseYamlLinesF ls.length ls

theorem parseYamlLinesF_cons_scalar (fuel : Nat) (l : Line) (rest : List Line)
    (k v : Line) (hk : parseKeyLine l = some (k, some v)) :
    parseYamlLinesF (fuel + 1) (l :: rest) =
      (k, YVal.vstr v) :: parseYamlLinesF fuel rest := by
  rw [show parseYamlLinesF (fuel + 1) (l :: rest) =
    (match parseKeyLine l with
     | some (k, some v) => (k, YVal.vstr v) :: parseYamlLinesF fuel rest
     | some (k, none) =>
       if nextIsArray rest then
         (k, YVal.varr (takeArrayItems rest).1) :: parseYamlLinesF fuel (takeArrayItems rest).2
       else
         (k, YVal.vmap (takeMapEntries rest).1) :: parseYamlLinesF fuel (takeMapEntries rest).2
     | none => parseYamlLinesF fuel rest) from rfl, hk]

theorem parseYamlLinesF_cons_open (fuel : Nat) (l : Line) (rest : List Line)
    (k : Line) (hk : parseKeyLine l = some (k, none)) :
    parseYamlLinesF (fuel + 1) (l :: rest) =
      if nextIsArray rest then
        (k, YVal.varr (takeArrayItems rest).1) :: parseYamlLinesF fuel (takeArrayItems rest).2
      else
        (k, YVal.vmap (takeMapEntries rest).1) ::
          parseYamlLinesF fuel (takeMapEntries rest).2 := by
  rw [show parseYamlLinesF (fuel + 1) (l :: rest) =
    (match parseKeyLine l with
     | some (k, some v) => (k, YVal.vstr v) :: parseYamlLinesF fuel rest
     | some (k, none) =>
       if nextIsArray rest then
         (k, YVal.varr (takeArrayItems rest).1) :: parseYamlLinesF fuel (takeArrayItems rest).2
       else
         (k, YVal.vmap (takeMapEntries rest).1) :: parseYamlLinesF fuel (takeMapEntries rest).2
     | none => parseYamlLinesF fuel rest) from rfl, hk]

theorem parseYamlLinesF_cons_skip (fuel : Nat) (l : Line) (rest : List Line)
    (hk : parseKeyLine l = none) :
    parseYamlLinesF (fuel + 1) (l :: rest) = parseYamlLinesF fuel rest := by
  rw [show parseYamlLinesF (fuel + 1) (l :: rest) =
    (match parseKeyLine l with
     | some (k, some v) => (k, YVal.vstr v) :: parseYamlLinesF fuel rest
     | some (k, none) =>
       if nextIsArray rest then
         (k, YVal.varr (takeArrayItems rest).1) :: parseYamlLinesF fuel (takeArrayItems rest).2
       else
         (k, YVal.vmap (takeMapEntries rest).1) :: parseYamlLinesF fuel (takeMapEntries rest).2
     | none => parseYamlLinesF fuel rest) from rfl, hk]

theorem parseYamlLinesF_eq (n : Nat) : ∀ (m : Nat) (ls : List Line),
    ls.length ≤ n → ls.length ≤ m → parseYamlLinesF n ls = parseYamlLinesF m ls := by
  induction n with
  | zero =>
    intro m ls hn _
    have : ls = [] := List.eq_nil_of_length_eq_zero (Nat.le_zero.mp hn)
    subst this
    cases m <;> rfl
  | succ n ih =>
    intro m ls hn hm
    cases ls with
    | nil => cases m <;> rfl
    | cons l rest =>
      cases m with
      | zero => simp at hm
      | succ m =>
        simp only [List.length_cons, Nat.succ_le_succ_iff] at hn hm
        have harr : (takeArrayItems rest).2.length ≤ rest.length := takeArrayItems_length rest
        have hmap : (takeMapEntries rest).2.length ≤ rest.length := takeMapEntries_length rest
        rcases hk : parseKeyLine l with _ | ⟨k, v⟩
        · rw [parseYamlLinesF_cons_skip n l rest hk, parseYamlLinesF_cons_skip m l rest hk]
          exact ih m rest hn hm
        · rcases v with _ | v
          · rw [parseYamlLinesF_cons_open n l rest k hk,
              parseYamlLinesF_cons_open m l rest k hk]
            by_cases hna : nextIsArray rest
            · rw [if_pos hna, if_pos hna,
                ih m (takeArrayItems rest).2 (le_trans harr hn) (le_trans harr hm)]
            · rw [if_neg hna, if_neg hna,
                ih m (takeMapEntries rest).2 (le_trans hmap hn) (le_trans hmap hm)]
          · rw [parseYamlLinesF_cons_scalar n l rest k v hk,
              parseYamlLinesF_cons_scalar m l rest k v hk, ih m rest hn hm]

/-- A scalar key-value line. -/
def scalarLine (k v : Line) : Line := k ++ ':' :: ' ' :: v

/-- A key line with empty value, opening an indented block. -/
def openLine (k : Line) : Line := k ++ [':']

/-- A block array item line for an item. -/
def itemLine (i : Line) : Line := ' ' :: ' ' :: '-' :: ' ' :: i

/-- A nested map entry line. -/
def entryLine (e : Line × Line) : Line := ' ' :: ' ' :: (e.1 ++ ':' :: ' ' :: e.2)

/-- Serialize frontmatter back to yaml lines: scalars on one line, arrays
and maps as an opening key line followed by indented lines. -/
def serializeYamlLines (fm : Frontmatter) : List Line :=
  (fm.map (fun kv =>
    match kv.2 with
    | YVal.vstr v => [scalarLine kv.1 v]
    | YVal.varr items => openLine kv.1 :: items.map itemLine
    | YVal.vmap es => openLine kv.1 :: es.map entryLine)).flatten

/-- The frontmatter delimiter line. -/
def dashLine : Line := ['-', '-', '-']

/-- Parse a document into frontmatter and body: a leading delimiter line,
yaml lines up to the next delimiter line, then the body.  Returns none
when the document has no frontmatter block. -/
def parseFrontmatterLines (content : List Line) : Option (Frontmatter × List Line) :=
  match content with
  | [] => none
  | l :: rest =>
    if l = dashLine then
      match splitFirst dashLine rest with
      | some (yaml, body) => some (parseYamlLines yaml, body)
      | none => none
    else none

/-- Normalize a metadata key prefix to underscore form, as the key names
use underscores while the configured prefix uses dashes. -/
def normPfx (p : Line) : Line := p.map (fun c => if c = '-' then '_' else c)

/-- The reserved managed-flag key for a prefix. -/
def managedKey (p : Line) : Line := normPfx p ++ "_managed".data

/-- The reserved content-hash key for a prefix. -/
def contentHashKey (p : Line) : Line := normPfx p ++ "_content_hash".data

/-- The metadata map key. -/
def metadataKey : Line := "metadata".data

/-- Join lines with newlines. -/
def joinLines : List Line → Line
  | [] => []
  | [l] => l
  | l :: rest => l ++ '\n' :: joinLines rest

/-- Rebuild a document from frontmatter and body. -/
def rebuildDoc (fm : Frontmatter) (body : List Line) : List Line :=
  dashLine :: serializeYamlLines fm ++ dashLine :: body

/-- Modelled from the spec: stripManagedMetadata of the absent
src/cli/src/core/skill-metadata.ts.  Removes only the two reserved keys
from the metadata map, deleting the map entirely when that empties it; a
document without a frontmatter block is returned unchanged, and one with
a block is rebuilt canonically. -/
def stripManagedMetadata (content : List Line) (p : Line) : List Line :=
  match parseFrontmatterLines content with
  | none => content
  | some (fm, body) =>
    match jsGet fm metadataKey with
    | some (YVal.vmap es) =>
      let es' := jsErase (jsErase es (managedKey p)) (contentHashKey p)
      let fm' := if es' = [] then jsErase fm metadataKey else jsSet fm metadataKey (YVal.vmap es')
      rebuildDoc fm' body
    | _ => rebuildDoc fm body

/-- Modelled from the spec: computeContentHash of the absent
src/cli/src/core/skill-metadata.ts — the sha256 content hash of the
metadata-stripped content. -/
def computeContentHash (content : List Line) (p : Line) : String :=
  hashContent (String.mk (joinLines (stripManagedMetadata content p)))

/-- Modelled from the spec: addManagedMetadata of the absent
src/cli/src/core/skill-metadata.ts.  Inserts or overwrites the reserved
managed-flag and content-hash keys under the metadata map, preserving all
other fields, and re-serializes the document.  A document without a
frontmatter block is given a fresh frontmatter above its content. -/
def addManagedMetadata (content : List Line) (p : Line) : List Line :=
  let parsed := match parseFrontmatterLines content with
    | some x => x
    | none => ([], content)
  let fm := parsed.1
  let body := parsed.2
  let contentHash := computeContentHash content p
  let md := match jsGet fm metadataKey with
    | some (YVal.vmap es) => es
    | _ => []
  let md' := jsSet (jsSet md (managedKey p) "true".data) (contentHashKey p) contentHash.data
  rebuildDoc (jsSet fm metadataKey (YVal.vmap md')) body

/-- Modelled from the spec: isManaged of the absent skill-metadata module
— the managed flag under the metadata map is the string true. -/
def isManaged (content : List Line) (p : Line) : Bool :=
  match parseFrontmatterLines content with
  | none => false
  | some (fm, _) =>
    match jsGet fm metadataKey with
    | some (YVal.vmap es) => jsGet es (managedKey p) = some "true".data
    | _ => false

/-! ## Well-formedness of frontmatter for the serializer round-trip -/

/-- A serializable key: non-empty, word characters only. -/
def wfKey (k : Line) : Prop := k ≠ [] ∧ k.all isWordChar = true

instance (k : Line) : Decidable (wfKey k) := by
  unfold wfKey
  exact inferInstance

/-- A serializable value: block arrays are non-empty (an empty block is
read back as an empty map) and nested map keys are word keys. -/
def wfVal : YVal → Prop
  | YVal.vstr _ => True
  | YVal.varr items => items ≠ []
  | YVal.vmap es => ∀ e ∈ es, wfKey e.1

instance (v : YVal) : Decidable (wfVal v) := by
  unfold wfVal
  cases v <;> exact inferInstance

/-- Serializable frontmatter: every key and value is serializable. -/
def wfFM (fm : Frontmatter) : Prop := ∀ kv ∈ fm, wfKey kv.1 ∧ wfVal kv.2

instance (fm : Frontmatter) : Decidable (wfFM fm) := by
  unfold wfFM
  exact inferInstance

/-- A serializable prefix: its normalized form is word characters. -/
def wfPfx (p : Line) : Prop := (normPfx p).all isWordChar = true

instance (p : Line) : Decidable (wfPfx p) := by
  unfold wfPfx
  exact inferInstance

/-! ## Round-trip of the codec's serializer and parser -/

theorem jsSet_jsSet {κ α : Type} [DecidableEq κ] (l : List (κ × α)) (k : κ) (v w : α) :
    jsSet (jsSet l k v) k w = jsSet l k w := by
  induction l with
  | nil => simp [jsSet]
  | cons a rest ih =>
    rcases a with ⟨k0, v0⟩
    by_cases h1 : k0 = k
    · simp [jsSet, h1]
    · simp only [jsSet, if_neg h1]
      rw [ih]

theorem jsGet_eq_none_iff {κ α : Type} [DecidableEq κ] (l : List (κ × α)) (k : κ) :
    jsGet l k = none ↔ ∀ kv ∈ l, kv.1 ≠ k := by
  induction l with
  | nil => simp [jsGet]
  | cons a rest ih =>
    rcases a with ⟨k0, v0⟩
    by_cases h1 : k0 = k
    · simp [jsGet, h1]
    · simp [jsGet, h1, ih]

theorem jsErase_eq_self_of_get_none {κ α : Type} [DecidableEq κ] (l : List (κ × α)) (k : κ)
    (h : jsGet l k = none) : jsErase l k = l := by
  induction l with
  | nil => rfl
  | cons a rest ih =>
    rcases a with ⟨k0, v0⟩
    by_cases h1 : k0 = k
    · simp [jsGet, h1] at h
    · simp only [jsGet, if_neg h1] at h
      simp only [jsErase, if_neg h1]
      rw [ih h]

theorem mem_jsSet {κ α : Type} [DecidableEq κ] (l : List (κ × α)) (k : κ) (v : α)
    (x : κ × α) (hx : x ∈ jsSet l k v) : x ∈ l ∨ x = (k, v) := by
  induction l with
  | nil =>
    simp only [jsSet, List.mem_singleton] at hx
    exact Or.inr hx
  | cons a rest ih =>
    rcases a with ⟨k0, v0⟩
    by_cases h1 : k0 = k
    · simp only [jsSet, if_pos h1, List.mem_cons] at hx
      rcases hx with hx | hx
      · exact Or.inr hx
      · exact Or.inl (List.mem_cons_of_mem _ hx)
    · simp only [jsSet, if_neg h1, List.mem_cons] at hx
      rcases hx with hx | hx
      · exact Or.inl (by simp [hx])
      · rcases ih hx with h | h
        · exact Or.inl (List.mem_cons_of_mem _ h)
        · exact Or.inr h

theorem isWordChar_ne_space {c : Char} (h : isWordChar c = true) : c ≠ ' ' := by
  intro he
  rw [he] at h
  exact absurd h (by decide)

theorem isWordChar_ne_dash {c : Char} (h : isWordChar c = true) : c ≠ '-' := by
  intro he
  rw [he] at h
  exact absurd h (by decide)

theorem wfKey_head {k : Line} (h : wfKey k) :
    ∃ c t, k = c :: t ∧ isWordChar c = true := by
  obtain ⟨hne, hall⟩ := h
  cases k with
  | nil => exact absurd rfl hne
  | cons c t =>
    exact ⟨c, t, rfl, List.all_eq_true.mp hall c (List.mem_cons_self _ _)⟩

theorem colon_not_mem_of_wfKey {k : Line} (h : wfKey k) : ':' ∉ k := by
  intro hmem
  have := List.all_eq_true.mp h.2 ':' hmem
  exact absurd this (by decide)

theorem parseKeyLine_scalar (k v : Line) (h : wfKey k) :
    parseKeyLine (scalarLine k v) = some (k, some v) := by
  unfold parseKeyLine scalarLine
  rw [splitFirst_append ':' k (' ' :: v) (colon_not_mem_of_wfKey h)]
  simp [h.1, h.2]

theorem parseKeyLine_open (k : Line) (h : wfKey k) :
    parseKeyLine (openLine k) = some (k, none) := by
  unfold parseKeyLine openLine
  rw [show k ++ [':'] = k ++ ':' :: [] from rfl,
    splitFirst_append ':' k [] (colon_not_mem_of_wfKey h)]
  simp [h.1, h.2]

theorem isArrayItemLine_itemLine (i : Line) : isArrayItemLine (itemLine i) = true := by
  simp [isArrayItemLine, itemLine]

theorem arrayItemVal_itemLine (i : Line) : arrayItemVal (itemLine i) = i := rfl

theorem isArrayItemLine_keyline (k rest : Line) (h : wfKey k) :
    isArrayItemLine (k ++ rest) = false := by
  obtain ⟨c, t, rfl, hc⟩ := wfKey_head h
  have hcs : c ≠ ' ' := isWordChar_ne_space hc
  simp only [isArrayItemLine, List.cons_append, decide_eq_false_iff_not]
  intro habs
  have h1 : c :: (t ++ rest).take 3 = [' ', ' ', '-', ' '] := habs
  injection h1 with hc2 _
  exact hcs hc2

theorem isArrayItemLine_entryLine (e : Line × Line) (h : wfKey e.1) :
    isArrayItemLine (entryLine e) = false := by
  obtain ⟨c, t, he, hc⟩ := wfKey_head h
  have hcd : c ≠ '-' := isWordChar_ne_dash hc
  simp only [entryLine, he, isArrayItemLine, List.cons_append, decide_eq_false_iff_not]
  intro habs
  have : ' ' :: ' ' :: c :: (t ++ ':' :: ' ' :: e.2).take 1 = [' ', ' ', '-', ' '] := habs
  injection this with _ h1
  injection h1 with _ h2
  injection h2 with h3 _
  exact hcd h3

theorem parseNestedKV_keyline (k rest : Line) (h : wfKey k) :
    parseNestedKV (k ++ rest) = none := by
  obtain ⟨c, t, rfl, hc⟩ := wfKey_head h
  have hcs : c ≠ ' ' := isWordChar_ne_space hc
  unfold parseNestedKV
  rw [if_neg]
  intro habs
  have : c :: (t ++ rest).take 1 = [' ', ' '] := habs
  injection this with h1 _
  exact hcs h1

theorem parseNestedKV_entryLine (e : Line × Line) (h : wfKey e.1) :
    parseNestedKV (entryLine e) = some e := by
  unfold parseNestedKV entryLine
  have hc : List.take 2 (' ' :: ' ' :: (e.1 ++ ':' :: ' ' :: e.2)) = [' ', ' '] := rfl
  rw [if_pos hc]
  have hd : List.drop 2 (' ' :: ' ' :: (e.1 ++ ':' :: ' ' :: e.2)) = e.1 ++ ':' :: ' ' :: e.2 := rfl
  rw [hd, show e.1 ++ ':' :: ' ' :: e.2 = scalarLine e.1 e.2 from rfl,
    parseKeyLine_scalar e.1 e.2 h]

/-- Lines at which indented-block collection stops. -/
def stopsBlock (l : Line) : Prop :=
  isArrayItemLine l = false ∧ parseNestedKV l = none

/-- Either no further lines, or the next line stops indented collection. -/
def serStops (ls : List Line) : Prop :=
  match ls with
  | [] => True
  | l :: _ => stopsBlock l

theorem stopsBlock_keyline (k rest : Line) (h : wfKey k) : stopsBlock (k ++ rest) :=
  ⟨isArrayItemLine_keyline k rest h, parseNestedKV_keyline k rest h⟩

theorem ser_serStops (fm : Frontmatter) (h : wfFM fm) :
    serStops (serializeYamlLines fm) := by
  cases fm with
  | nil => trivial
  | cons kv rest =>
    obtain ⟨k, v⟩ := kv
    have hk : wfKey k := (h _ (List.mem_cons_self _ _)).1
    cases v with
    | vstr s =>
      show serStops ((scalarLine k s :: List.nil) ++ _)
      exact stopsBlock_keyline k _ hk
    | varr items =>
      show serStops ((openLine k :: items.map itemLine) ++ _)
      exact stopsBlock_keyline k _ hk
    | vmap es =>
      show serStops ((openLine k :: es.map entryLine) ++ _)
      exact stopsBlock_keyline k _ hk

theorem takeArrayItems_emit (items : List Line) (ls : List Line) (hstop : serStops ls) :
    takeArrayItems (items.map itemLine ++ ls) = (items, ls) := by
  induction items with
  | nil =>
    simp only [List.map_nil, List.nil_append]
    cases ls with
    | nil => rfl
    | cons l t =>
      have : isArrayItemLine l = false := hstop.1
      simp [takeArrayItems, this]
  | cons i it ih =>
    simp only [List.map_cons, List.cons_append, takeArrayItems,
      isArrayItemLine_itemLine, if_true, List.append_eq, arrayItemVal_itemLine, ih]

theorem takeMapEntries_emit (es : List (Line × Line)) (ls : List Line)
    (hwf : ∀ e ∈ es, wfKey e.1) (hstop : serStops ls) :
    takeMapEntries (es.map entryLine ++ ls) = (es, ls) := by
  induction es with
  | nil =>
    simp only [List.map_nil, List.nil_append]
    cases ls with
    | nil => rfl
    | cons l t =>
      have : parseNestedKV l = none := hstop.2
      simp [takeMapEntries, this]
  | cons e et ih =>
    have he : wfKey e.1 := hwf e (List.mem_cons_self _ _)
    have het : ∀ x ∈ et, wfKey x.1 := fun x hx => hwf x (List.mem_cons_of_mem _ hx)
    simp only [List.map_cons, List.cons_append, takeMapEntries,
      parseNestedKV_entryLine e he, List.append_eq, ih het]

theorem parseYamlLines_cons_scalar (l : Line) (rest : List Line) (k v : Line)
    (h : parseKeyLine l = some (k, some v)) :
    parseYamlLines (l :: rest) = (k, YVal.vstr v) :: parseYamlLines rest := by
  show parseYamlLinesF (rest.length + 1) (l :: rest) = _
  rw [parseYamlLinesF_cons_scalar rest.length l rest k v h]
  rfl

theorem parseYamlLines_cons_arr (l : Line) (rest : List Line) (k : Line)
    (h : parseKeyLine l = some (k, none)) (hn : nextIsArray rest = true) :
    parseYamlLines (l :: rest) =
      (k, YVal.varr (takeArrayItems rest).1) :: parseYamlLines (takeArrayItems rest).2 := by
  show parseYamlLinesF (rest.length + 1) (l :: rest) = _
  rw [parseYamlLinesF_cons_open rest.length l rest k h, if_pos hn,
    parseYamlLinesF_eq rest.length (takeArrayItems rest).2.length
      (takeArrayItems rest).2 (takeArrayItems_length rest) le_rfl]
  rfl

theorem parseYamlLines_cons_map (l : Line) (rest : List Line) (k : Line)
    (h : parseKeyLine l = some (k, none)) (hn : nextIsArray rest = false) :
    parseYamlLines (l :: rest) =
      (k, YVal.vmap (takeMapEntries rest).1) :: parseYamlLines (takeMapEntries rest).2 := by
  show parseYamlLinesF (rest.length + 1) (l :: rest) = _
  rw [parseYamlLinesF_cons_open rest.length l rest k h,
    if_neg (by rw [hn]; exact Bool.false_ne_true),
    parseYamlLinesF_eq rest.length (takeMapEntries rest).2.length
      (takeMapEntries rest).2 (takeMapEntries_length rest) le_rfl]
  rfl

theorem parse_serialize (fm : Frontmatter) (h : wfFM fm) :
    parseYamlLines (serializeYamlLines fm) = fm := by
  induction fm with
  | nil => rfl
  | cons kv rest ih =>
    obtain ⟨k, v⟩ := kv
    have hk : wfKey k := (h _ (List.mem_cons_self _ _)).1
    have hv : wfVal v := (h _ (List.mem_cons_self _ _)).2
    have hrest : wfFM rest := fun x hx => h x (List.mem_cons_of_mem _ hx)
    have hstop := ser_serStops rest hrest
    cases v with
    | vstr s =>
      rw [show serializeYamlLines ((k, YVal.vstr s) :: rest) =
        scalarLine k s :: serializeYamlLines rest from rfl]
      rw [parseYamlLines_cons_scalar _ _ _ _ (parseKeyLine_scalar k s hk), ih hrest]
    | varr items =>
      rw [show serializeYamlLines ((k, YVal.varr items) :: rest) =
        openLine k :: (items.map itemLine ++ serializeYamlLines rest) from rfl]
      have hitems : items ≠ [] := hv
      obtain ⟨i, it, rfl⟩ : ∃ i it, items = i :: it := by
        cases items with
        | nil => exact absurd rfl hitems
        | cons i it => exact ⟨i, it, rfl⟩
      have hnext : nextIsArray ((i :: it).map itemLine ++ serializeYamlLines rest) = true := by
        simp [nextIsArray, isArrayItemLine_itemLine]
      rw [parseYamlLines_cons_arr _ _ _ (parseKeyLine_open k hk) hnext,
        takeArrayItems_emit (i :: it) (serializeYamlLines rest) hstop]
      simp [ih hrest]
    | vmap es =>
      rw [show serializeYamlLines ((k, YVal.vmap es) :: rest) =
        openLine k :: (es.map entryLine ++ serializeYamlLines rest) from rfl]
      have hes : ∀ e ∈ es, wfKey e.1 := hv
      have hnext : nextIsArray (es.map entryLine ++ serializeYamlLines rest) = false := by
        cases es with
        | nil =>
          simp only [List.map_nil, List.nil_append]
          cases hser : serializeYamlLines rest with
          | nil => rfl
          | cons l t =>
            have hstop2 := hstop
            rw [hser] at hstop2
            simp [nextIsArray, hstop2.1]
        | cons e et =>
          simp only [List.map_cons, List.cons_append, nextIsArray]
          exact isArrayItemLine_entryLine e (hes e (List.mem_cons_self _ _))
      rw [parseYamlLines_cons_map _ _ _ (parseKeyLine_open k hk) hnext,
        takeMapEntries_emit es (serializeYamlLines rest) hes hstop]
      simp [ih hrest]

theorem itemLine_ne_dash (i : Line) : itemLine i ≠ dashLine := by
  intro h
  injection h with h1 _
  exact absurd h1 (by decide)

theorem entryLine_ne_dash (e : Line × Line) : entryLine e ≠ dashLine := by
  intro h
  injection h with h1 _
  exact absurd h1 (by decide)

theorem ser_not_dash (fm : Frontmatter) (h : wfFM fm) :
    dashLine ∉ serializeYamlLines fm := by
  intro hmem
  simp only [serializeYamlLines, List.mem_flatten, List.mem_map] at hmem
  obtain ⟨chunk, ⟨kv, hkv, hchunk⟩, hline⟩ := hmem
  obtain ⟨k0, v0⟩ := kv
  have hk : wfKey k0 := (h _ hkv).1
  obtain ⟨c, t, hkc, hc⟩ := wfKey_head hk
  have hcd : c ≠ '-' := isWordChar_ne_dash hc
  have headline : ∀ rest : Line, ¬ (k0 ++ rest = dashLine) := by
    intro rest habs
    rw [hkc] at habs
    have h2 : c :: (t ++ rest) = dashLine := habs
    injection h2 with h1 _
    exact hcd h1
  rw [← hchunk] at hline
  cases v0 with
  | vstr s =>
    simp only [List.mem_singleton] at hline
    exact headline _ hline.symm
  | varr items =>
    rcases List.mem_cons.mp hline with h1 | h1
    · exact headline [':'] h1.symm
    · obtain ⟨i, _, hi⟩ := List.mem_map.mp h1
      exact itemLine_ne_dash i hi
  | vmap es =>
    rcases List.mem_cons.mp hline with h1 | h1
    · exact headline [':'] h1.symm
    · obtain ⟨e, _, hee⟩ := List.mem_map.mp h1
      exact entryLine_ne_dash e hee

theorem parseFrontmatterLines_cons (l : Line) (rest : List Line) :
    parseFrontmatterLines (l :: rest) =
      if l = dashLine then
        match splitFirst dashLine rest with
        | some (yaml, body) => some (parseYamlLines yaml, body)
        | none => none
      else none := rfl

theorem parse_rebuild (fm : Frontmatter) (body : List Line) (h : wfFM fm) :
    parseFrontmatterLines (rebuildDoc fm body) = some (fm, body) := by
  show parseFrontmatterLines
    (dashLine :: (serializeYamlLines fm ++ dashLine :: body)) = some (fm, body)
  rw [parseFrontmatterLines_cons, if_pos rfl,
    splitFirst_append dashLine (serializeYamlLines fm) body (ser_not_dash fm h)]
  show some (parseYamlLines (serializeYamlLines fm), body) = some (fm, body)
  rw [parse_serialize fm h]

theorem jsGet_mem {κ α : Type} [DecidableEq κ] (l : List (κ × α)) (k : κ) (v : α)
    (h : jsGet l k = some v) : (k, v) ∈ l := by
  induction l with
  | nil => simp [jsGet] at h
  | cons a rest ih =>
    rcases a with ⟨k0, v0⟩
    by_cases h1 : k0 = k
    · subst h1
      simp [jsGet] at h
      simp [h]
    · simp only [jsGet, if_neg h1] at h
      exact List.mem_cons_of_mem _ (ih h)

theorem wfKey_metadataKey : wfKey metadataKey := by
  constructor
  · decide
  · decide

theorem wfKey_managedKey (p : Line) (hp : wfPfx p) : wfKey (managedKey p) := by
  constructor
  · simp [managedKey]
  · have hp2 : (normPfx p).all isWordChar = true := hp
    simp only [managedKey, List.all_append, hp2, Bool.true_and]
    decide

theorem wfKey_contentHashKey (p : Line) (hp : wfPfx p) : wfKey (contentHashKey p) := by
  constructor
  · simp [contentHashKey]
  · have hp2 : (normPfx p).all isWordChar = true := hp
    simp only [contentHashKey, List.all_append, hp2, Bool.true_and]
    decide

theorem managedKey_ne_contentHashKey (p : Line) : managedKey p ≠ contentHashKey p := by
  intro h
  unfold managedKey contentHashKey at h
  have := List.append_cancel_left h
  exact absurd this (by decide)

theorem wfFM_jsSet (fm : Frontmatter) (k : Line) (v : YVal)
    (h : wfFM fm) (hk : wfKey k) (hv : wfVal v) : wfFM (jsSet fm k v) := by
  intro x hx
  rcases mem_jsSet fm k v x hx with h1 | h1
  · exact h x h1
  · rw [h1]
    exact ⟨hk, hv⟩

theorem wfVal_stamped (md : List (Line × Line)) (p : Line)
    (hmd : ∀ e ∈ md, wfKey e.1) (hp : wfPfx p) (t h' : Line) :
    wfVal (YVal.vmap (jsSet (jsSet md (managedKey p) t) (contentHashKey p) h')) := by
  intro e he
  rcases mem_jsSet _ _ _ _ he with h1 | h1
  · rcases mem_jsSet _ _ _ _ h1 with h2 | h2
    · exact hmd e h2
    · rw [h2]
      exact wfKey_managedKey p hp
  · rw [h1]
    exact wfKey_contentHashKey p hp

/-- Erasing both reserved keys after stamping them returns the metadata
map to its reserved-key-free part. -/
theorem erase_stamped (md : List (Line × Line)) (p : Line) (t h' : Line) :
    jsErase (jsErase (jsSet (jsSet md (managedKey p) t) (contentHashKey p) h')
      (managedKey p)) (contentHashKey p) =
    jsErase (jsErase md (managedKey p)) (contentHashKey p) := by
  have hne : contentHashKey p ≠ managedKey p :=
    fun h => managedKey_ne_contentHashKey p h.symm
  rw [jsErase_jsSet_ne _ _ _ _ hne, jsErase_jsSet, jsErase_jsSet]

/-- Stripping after stamping equals stripping the original document. -/
theorem strip_add (content : List Line) (p : Line) (fm : Frontmatter) (body : List Line)
    (hparse : parseFrontmatterLines content = some (fm, body))
    (hwf : wfFM fm) (hp : wfPfx p)
    (hmd : jsGet fm metadataKey = none ∨
      ∃ es, jsGet fm metadataKey = some (YVal.vmap es)) :
    stripManagedMetadata (addManagedMetadata content p) p =
      stripManagedMetadata content p := by
  rcases hmd with hnone | ⟨es, hes⟩
  · have hadd : addManagedMetadata content p =
        rebuildDoc (jsSet fm metadataKey (YVal.vmap (jsSet (jsSet []
          (managedKey p) "true".data) (contentHashKey p)
          (computeContentHash content p).data))) body := by
      simp only [addManagedMetadata, hparse, hnone]
    have hwf1 : wfFM (jsSet fm metadataKey (YVal.vmap (jsSet (jsSet []
        (managedKey p) "true".data) (contentHashKey p)
        (computeContentHash content p).data))) :=
      wfFM_jsSet _ _ _ hwf wfKey_metadataKey
        (wfVal_stamped [] p (by simp) hp _ _)
    rw [hadd]
    have hR : stripManagedMetadata content p = rebuildDoc fm body := by
      simp only [stripManagedMetadata, hparse, hnone]
    rw [hR]
    simp only [stripManagedMetadata, parse_rebuild _ _ hwf1, jsGet_jsSet_self,
      erase_stamped, jsErase]
    rw [if_pos trivial, jsErase_jsSet, jsErase_eq_self_of_get_none fm metadataKey hnone]
  · have hadd : addManagedMetadata content p =
        rebuildDoc (jsSet fm metadataKey (YVal.vmap (jsSet (jsSet es
          (managedKey p) "true".data) (contentHashKey p)
          (computeContentHash content p).data))) body := by
      simp only [addManagedMetadata, hparse, hes]
    have hmdwf : ∀ e ∈ es, wfKey e.1 := (hwf _ (jsGet_mem fm metadataKey _ hes)).2
    have hwf1 : wfFM (jsSet fm metadataKey (YVal.vmap (jsSet (jsSet es
        (managedKey p) "true".data) (contentHashKey p)
        (computeContentHash content p).data))) :=
      wfFM_jsSet _ _ _ hwf wfKey_metadataKey (wfVal_stamped es p hmdwf hp _ _)
    rw [hadd]
    simp only [stripManagedMetadata, parse_rebuild _ _ hwf1, jsGet_jsSet_self,
      erase_stamped, hparse, hes]
    by_cases hempty : jsErase (jsErase es (managedKey p)) (contentHashKey p) = []
    · rw [if_pos hempty, if_pos hempty, jsErase_jsSet]
    · rw [if_neg hempty, if_neg hempty, jsSet_jsSet]

/-- The content hash ignores the stamped managed metadata. -/
theorem computeContentHash_add (content : List Line) (p : Line) (fm : Frontmatter)
    (body : List Line)
    (hparse : parseFrontmatterLines content = some (fm, body))
    (hwf : wfFM fm) (hp : wfPfx p)
    (hmd : jsGet fm metadataKey = none ∨
      ∃ es, jsGet fm metadataKey = some (YVal.vmap es)) :
    computeContentHash (addManagedMetadata content p) p = computeContentHash content p := by
  unfold computeContentHash
  rw [strip_add content p fm body hparse hwf hp hmd]

/-- The stamped document in explicit rebuilt form. -/
theorem addManagedMetadata_eq (content : List Line) (p : Line) (fm : Frontmatter)
    (body : List Line) (md : List (Line × Line))
    (hparse : parseFrontmatterLines content = some (fm, body))
    (hmdeq : (match jsGet fm metadataKey with
      | some (YVal.vmap es) => es
      | _ => []) = md) :
    addManagedMetadata content p = rebuildDoc (jsSet fm metadataKey (YVal.vmap
      (jsSet (jsSet md (managedKey p) "true".data) (contentHashKey p)
        (computeContentHash content p).data))) body := by
  simp only [addManagedMetadata, hparse, hmdeq]

/-- Stamping managed metadata twice yields the once-stamped document. -/
theorem add_add (content : List Line) (p : Line) (fm : Frontmatter) (body : List Line)
    (hparse : parseFrontmatterLines content = some (fm, body))
    (hwf : wfFM fm) (hp : wfPfx p)
    (hmd : jsGet fm metadataKey = none ∨
      ∃ es, jsGet fm metadataKey = some (YVal.vmap es)) :
    addManagedMetadata (addManagedMetadata content p) p = addManagedMetadata content p := by
  have hne : managedKey p ≠ contentHashKey p := managedKey_ne_contentHashKey p
  obtain ⟨md, hmdeq, hmdwf⟩ : ∃ md, (match jsGet fm metadataKey with
      | some (YVal.vmap es) => es
      | _ => []) = md ∧ ∀ e ∈ md, wfKey e.1 := by
    rcases hmd with hnone | ⟨es, hes⟩
    · exact ⟨[], by rw [hnone], by simp⟩
    · exact ⟨es, by rw [hes], (hwf _ (jsGet_mem fm metadataKey _ hes)).2⟩
  have h1 := addManagedMetadata_eq content p fm body md hparse hmdeq
  have hwf1 : wfFM (jsSet fm metadataKey (YVal.vmap (jsSet (jsSet md
      (managedKey p) "true".data) (contentHashKey p)
      (computeContentHash content p).data))) :=
    wfFM_jsSet _ _ _ hwf wfKey_metadataKey (wfVal_stamped md p hmdwf hp _ _)
  have hparse1 : parseFrontmatterLines (addManagedMetadata content p) =
      some (jsSet fm metadataKey (YVal.vmap (jsSet (jsSet md
        (managedKey p) "true".data) (contentHashKey p)
        (computeContentHash content p).data)), body) := by
    rw [h1]
    exact parse_rebuild _ _ hwf1
  have hmdeq1 : (match jsGet (jsSet fm metadataKey (YVal.vmap (jsSet (jsSet md
      (managedKey p) "true".data) (contentHashKey p)
      (computeContentHash content p).data))) metadataKey with
      | some (YVal.vmap es) => es
      | _ => []) = jsSet (jsSet md (managedKey p) "true".data) (contentHashKey p)
        (computeContentHash content p).data := by
    rw [jsGet_jsSet_self]
  have h2 := addManagedMetadata_eq (addManagedMetadata content p) p _ body _ hparse1 hmdeq1
  have hh : computeContentHash (addManagedMetadata content p) p =
      computeContentHash content p :=
    computeContentHash_add content p fm body hparse hwf hp hmd
  have e1 : jsSet (jsSet (jsSet md (managedKey p) "true".data) (contentHashKey p)
      (computeContentHash content p).data) (managedKey p) "true".data =
      jsSet (jsSet md (managedKey p) "true".data) (contentHashKey p)
        (computeContentHash content p).data := by
    apply jsSet_eq_self
    rw [jsGet_jsSet_ne _ _ _ _ hne, jsGet_jsSet_self]
  have e2 : jsSet (jsSet (jsSet md (managedKey p) "true".data) (contentHashKey p)
      (computeContentHash content p).data) (contentHashKey p)
      (computeContentHash content p).data =
      jsSet (jsSet md (managedKey p) "true".data) (contentHashKey p)
        (computeContentHash content p).data := by
    apply jsSet_eq_self
    exact jsGet_jsSet_self _ _ _
  have e3 : jsSet (jsSet fm metadataKey (YVal.vmap (jsSet (jsSet md
      (managedKey p) "true".data) (contentHashKey p)
      (computeContentHash content p).data))) metadataKey
      (YVal.vmap (jsSet (jsSet md (managedKey p) "true".data) (contentHashKey p)
        (computeContentHash content p).data)) =
      jsSet fm metadataKey (YVal.vmap (jsSet (jsSet md
        (managedKey p) "true".data) (contentHashKey p)
        (computeContentHash content p).data)) := by
    apply jsSet_eq_self
    exact jsGet_jsSet_self _ _ _
  rw [h2, hh, e1, e2, e3, h1]

/-! ## Agent metadata (src/unnamed/part_012)

The agent file codec of src/unnamed/part_012 is present in the source and
is embedded here: addAgentMetadata rebuilds the frontmatter object from
the parsed agent, stamping the two reserved keys under the metadata map,
and serializeFrontmatter writes it back with conditional quoting. -/

/-- Values of parsed agent frontmatter: scalars, arrays, one nested map. -/
inductive AVal where
  | astr (s : String)
  | aarr (items : List String)
  | amap (entries : List (String × String))
deriving DecidableEq

/-- Parsed agent frontmatter, an insertion-ordered object. -/
abbrev AgentFM := List (String × AVal)

/-- Embeds the Agent record of src/unnamed/part_012. -/
structure Agent where
  relativePath : String
  rawContent : String
  frontmatter : Option AgentFM
  body : String
deriving DecidableEq

/-- Embeds needsQuoting of src/unnamed/part_012. -/
def needsQuoting (value : String) : Bool :=
  value.contains ':' || value.contains '#' || value.contains '@' ||
  value == "true" || value == "false" ||
  (!value.isEmpty && value.data.all Char.isDigit)

/-- Quote a value when needsQuoting says so. -/
def quoteVal (s : String) : String :=
  if needsQuoting s then "\"" ++ s ++ "\"" else s

/-- Embeds serializeFrontmatter of src/unnamed/part_012. -/
def serializeFrontmatter (fm : AgentFM) : String :=
  String.intercalate "\n" ((fm.map (fun kv =>
    match kv.2 with
    | AVal.astr s => [kv.1 ++ ": " ++ quoteVal s]
    | AVal.aarr items => (kv.1 ++ ":") :: items.map (fun i => "  - \"" ++ i ++ "\"")
    | AVal.amap es =>
      (kv.1 ++ ":") :: es.map (fun e => "  " ++ e.1 ++ ": " ++ quoteVal e.2))).flatten)

/-- Generic split of a character list at a separator. -/
def splitChar (sep : Char) : List Char → List (List Char)
  | [] => [[]]
  | c :: rest =>
    let r := splitChar sep rest
    if c = sep then [] :: r
    else
      match r with
      | [] => [[c]]
      | h :: t => (c :: h) :: t

/-- The skill codec's content hash over a raw content string: the string
split into lines, hashed with the given metadata prefix. -/
def computeContentHashStr (s : String) (p : String) : String :=
  computeContentHash (splitChar '\n' s.data) p.data

/-- The frontmatter object built by addAgentMetadata of
src/unnamed/part_012: name and description first (defaulted when absent),
every other non-metadata field copied over in order, then the metadata map
extended with the reserved managed-flag and content-hash keys. -/
def addAgentMetadataFM (agent : Agent) (metadataPfx : String) : AgentFM :=
  let managedK := metadataPfx ++ "_managed"
  let hashK := metadataPfx ++ "_content_hash"
  let hashMetadataPfx := String.mk (metadataPfx.data.map (fun c => if c = '_' then '-' else c))
  let contentHash := computeContentHashStr agent.rawContent hashMetadataPfx
  let existingFM := agent.frontmatter.getD []
  let existingMd := match jsGet existingFM "metadata" with
    | some (AVal.amap es) => es
    | _ => []
  let newMetadata := jsSet (jsSet existingMd managedK "true") hashK contentHash
  let base : AgentFM := [("name", (jsGet existingFM "name").getD (AVal.astr "")),
                         ("description", (jsGet existingFM "description").getD (AVal.astr ""))]
  let copied := existingFM.foldl
    (fun acc kv => if kv.1 = "metadata" then acc else jsSet acc kv.1 kv.2) base
  jsSet copied "metadata" (AVal.amap newMetadata)

/-- Embeds addAgentMetadata of src/unnamed/part_012: serialize the
rebuilt frontmatter between delimiters, followed by the untouched body. -/
def addAgentMetadata (agent : Agent) (metadataPfx : String) : String :=
  "---\n" ++ serializeFrontmatter (addAgentMetadataFM agent metadataPfx) ++ "\n---\n" ++
    agent.body

/-- The copying fold of addAgentMetadata leaves keys that the frontmatter
does not contain untouched in the accumulator. -/
theorem fold_copy_get_of_not_mem (fm : AgentFM) (acc : AgentFM) (k : String)
    (h : ∀ kv ∈ fm, kv.1 ≠ k) :
    jsGet (fm.foldl
      (fun acc kv => if kv.1 = "metadata" then acc else jsSet acc kv.1 kv.2) acc) k =
    jsGet acc k := by
  induction fm generalizing acc with
  | nil => rfl
  | cons a rest ih =>
    have ha : a.1 ≠ k := h a (List.mem_cons_self _ _)
    have hrest : ∀ kv ∈ rest, kv.1 ≠ k := fun kv hkv => h kv (List.mem_cons_of_mem _ hkv)
    rw [List.foldl_cons, ih _ hrest]
    by_cases hm : a.1 = "metadata"
    · rw [if_pos hm]
    · rw [if_neg hm, jsGet_jsSet_ne _ _ _ _ (fun he => ha he.symm)]

/-- The copying fold of addAgentMetadata transfers every non-metadata
field of a unique-key frontmatter with its original value. -/
theorem fold_copy_get_of_mem (fm : AgentFM) (acc : AgentFM) (k : String) (v : AVal)
    (hnd : (fm.map Prod.fst).Nodup) (hmem : (k, v) ∈ fm) (hk : k ≠ "metadata") :
    jsGet (fm.foldl
      (fun acc kv => if kv.1 = "metadata" then acc else jsSet acc kv.1 kv.2) acc) k =
    some v := by
  induction fm generalizing acc with
  | nil => simp at hmem
  | cons a rest ih =>
    rw [List.map_cons, List.nodup_cons] at hnd
    rcases List.mem_cons.mp hmem with hma | hma
    · subst hma
      have hrest : ∀ kv ∈ rest, kv.1 ≠ k := by
        intro kv hkv habs
        have hmm : kv.1 ∈ List.map Prod.fst rest := List.mem_map_of_mem Prod.fst hkv
        rw [habs] at hmm
        exact hnd.1 hmm
      rw [List.foldl_cons, fold_copy_get_of_not_mem rest _ k hrest]
      rw [if_neg (show ¬ ((k, v).1 = "metadata") from hk)]
      exact jsGet_jsSet_self acc (k, v).1 (k, v).2
    · rw [List.foldl_cons]
      exact ih _ hnd.2 hma

/-! ## Marker merge engine

Modelled from the spec: the marker merge module (src/cli/src/core/markers
and the merge step of src/cli/src/core/sync.ts) is not under src/ — only
its integration tests are.  The spec fixes the contract: four sentinel
comment lines divide the instructions document; merging replaces only the
global region verbatim, a missing file yields a template, a file without
any markers becomes the initial repo region, and an unbalanced marker
pair is a hard CorruptMarkers failure. -/

def globalStartMarker (p : Line) : Line := "<!-- ".data ++ p ++ ":global:start -->".data

def globalEndMarker (p : Line) : Line := "<!-- ".data ++ p ++ ":global:end -->".data

def repoStartMarker (p : Line) : Line := "<!-- ".data ++ p ++ ":repo:start -->".data

def repoEndMarker (p : Line) : Line := "<!-- ".data ++ p ++ ":repo:end -->".data

structure MergeOutcome where
  content : List Line
  merged : Bool
  created : Bool
deriving DecidableEq

inductive MergeError where
  | corruptMarkers
deriving DecidableEq

/-- The placeholder put into a fresh repo region. -/
def repoPlaceholderLines : List Line :=
  ["<!-- Repository-specific instructions below -->".data]

/-- A fresh instructions document: the global region wrapping the
canonical content, a blank line, then the repo region. -/
def templateDoc (p : Line) (globalContent repoContent : List Line) : List Line :=
  [globalStartMarker p] ++ globalContent ++ [globalEndMarker p, [], repoStartMarker p] ++
    repoContent ++ [repoEndMarker p]

/-- Modelled from the spec: the marker merge of the absent merge module.
No existing file yields the template around the canonical content; a file
with both marker pairs has exactly its global region replaced; a file with
no markers at all becomes the initial repo region under a new global
region; anything else is a hard CorruptMarkers failure. -/
def mergeInstructions (p : Line) (existing : Option (List Line)) (canonical : List Line) :
    Except MergeError MergeOutcome :=
  match existing with
  | none => Except.ok ⟨templateDoc p canonical repoPlaceholderLines, false, true⟩
  | some e =>
    if globalStartMarker p ∈ e ∧ globalEndMarker p ∈ e ∧
        repoStartMarker p ∈ e ∧ repoEndMarker p ∈ e then
      match splitFirst (globalStartMarker p) e with
      | none => Except.error MergeError.corruptMarkers
      | some (before, rest1) =>
        match splitFirst (globalEndMarker p) rest1 with
        | none => Except.error MergeError.corruptMarkers
        | some (_, after) =>
          Except.ok ⟨before ++ [globalStartMarker p] ++ canonical ++
            [globalEndMarker p] ++ after, true, false⟩
    else if globalStartMarker p ∉ e ∧ globalEndMarker p ∉ e ∧
        repoStartMarker p ∉ e ∧ repoEndMarker p ∉ e then
      Except.ok ⟨templateDoc p canonical e, true, false⟩
    else Except.error MergeError.corruptMarkers

theorem wordHex_mem (w : Nat) : ∀ c ∈ wordHex w, c ∈ hexDigits := by
  intro c hc
  simp only [wordHex, List.mem_cons, List.not_mem_nil, or_false] at hc
  rcases hc with h | h | h | h | h | h | h | h <;> (rw [h]; exact hexChar_mem _)

theorem digestHexChars_mem (s : Sha256State) :
    ∀ c ∈ digestHexChars s, c ∈ hexDigits := by
  intro c hc
  simp only [digestHexChars, List.mem_append] at hc
  rcases hc with ((((((h | h) | h) | h) | h) | h) | h) | h <;> exact wordHex_mem _ _ h

/-! ## Claim theorems -/

/-- C1: for every existing instructions document containing both marker
pairs, re-syncing with new canonical global content replaces only the
global region: the repo region and all content outside both pairs are
identical before and after the merge, and the global region equals the
new canonical content. -/
theorem C1_merge_replaces_only_global_region (p : Line)
    (pre old mid repo post canonical : List Line)
    (hgs : globalStartMarker p ∉ pre)
    (hge : globalEndMarker p ∉ old) :
    mergeInstructions p (some (pre ++ globalStartMarker p ::
      (old ++ globalEndMarker p :: (mid ++ repoStartMarker p ::
        (repo ++ repoEndMarker p :: post))))) canonical =
    Except.ok ⟨pre ++ globalStartMarker p :: (canonical ++ globalEndMarker p ::
      (mid ++ repoStartMarker p :: (repo ++ repoEndMarker p :: post))),
      true, false⟩ := by
  show (if globalStartMarker p ∈ _ ∧ globalEndMarker p ∈ _ ∧
      repoStartMarker p ∈ _ ∧ repoEndMarker p ∈ _ then _ else _) = _
  rw [if_pos (by refine ⟨?_, ?_, ?_, ?_⟩ <;> simp)]
  simp only [splitFirst_append (globalStartMarker p) pre _ hgs,
    splitFirst_append (globalEndMarker p) old _ hge]
  simp [List.append_assoc]

/-- C1 witness: a concrete two-region document at a concrete new global
content. -/
theorem C1_merge_replaces_only_global_region_witness :
    mergeInstructions "agent-conf".data (some (["# Intro".data] ++
      globalStartMarker "agent-conf".data :: (["old global".data] ++
        globalEndMarker "agent-conf".data :: ([[]] ++
          repoStartMarker "agent-conf".data :: (["my repo notes".data] ++
            repoEndMarker "agent-conf".data :: ["# Tail".data])))))
      ["new global".data] =
    Except.ok ⟨["# Intro".data] ++ globalStartMarker "agent-conf".data ::
      (["new global".data] ++ globalEndMarker "agent-conf".data :: ([[]] ++
        repoStartMarker "agent-conf".data :: (["my repo notes".data] ++
          repoEndMarker "agent-conf".data :: ["# Tail".data]))),
      true, false⟩ :=
  C1_merge_replaces_only_global_region "agent-conf".data
    ["# Intro".data] ["old global".data] [[]] ["my repo notes".data]
    ["# Tail".data] ["new global".data] (by decide) (by decide)

/-- C2: the content hash is the string sha256: followed by exactly the
first 12 hexadecimal characters of the SHA-256 digest of the content, and
computeContentHash applies it to the metadata-stripped content. -/
theorem C2_content_hash_format (s : String) (content : List Line) (p : Line) :
    hashContent s = String.mk ("sha256:".data ++ (sha256Hex s).data.take 12) ∧
    (sha256Hex s).data.length = 64 ∧
    (∀ c ∈ (sha256Hex s).data, c ∈ hexDigits) ∧
    (hashContent s).data.length = 19 ∧
    computeContentHash content p =
      hashContent (String.mk (joinLines (stripManagedMetadata content p))) := by
  refine ⟨rfl, digestHexChars_length _, digestHexChars_mem _, ?_, rfl⟩
  show ("sha256:".data ++ (digestHexChars (sha256Digest (strBytes s))).take 12).length = 19
  rw [List.length_append, List.length_take, digestHexChars_length]
  rfl

/-- C2 witness: the format facts at a concrete content string. -/
theorem C2_content_hash_format_witness :
    hashContent "abc" = String.mk ("sha256:".data ++ (sha256Hex "abc").data.take 12) ∧
    (sha256Hex "abc").data.length = 64 ∧ (hashContent "abc").data.length = 19 :=
  ⟨(C2_content_hash_format "abc" [] []).1, (C2_content_hash_format "abc" [] []).2.1,
    (C2_content_hash_format "abc" [] []).2.2.2.1⟩

set_option maxRecDepth 100000 in
/-- C3 counterexample: for the frontmatter-less skill content that the
repository's own integration tests sync, stamping managed metadata
changes the computed content hash — the stamp adds a frontmatter block
whose delimiter lines survive stripping — refuting the claim over every
artifact content. -/
theorem C3_hash_ignores_managed_metadata_counterexample :
    computeContentHash (addManagedMetadata
      ["# Test Skill".data, [], "Skill instructions.".data] "agent-conf".data)
      "agent-conf".data ≠
    computeContentHash ["# Test Skill".data, [], "Skill instructions.".data]
      "agent-conf".data := by decide

/-- C3 (amended): for every artifact content with a parseable frontmatter
block (serializable subset frontmatter whose metadata key is absent or a
map), stamping the reserved managed-metadata keys does not change the
computed content hash, because the hash is taken over content with the
reserved keys stripped. -/
theorem C3_hash_ignores_managed_metadata (content : List Line) (p : Line)
    (fm : Frontmatter) (body : List Line)
    (hparse : parseFrontmatterLines content = some (fm, body))
    (hwf : wfFM fm) (hp : wfPfx p)
    (hmd : jsGet fm metadataKey = none ∨
      ∃ es, jsGet fm metadataKey = some (YVal.vmap es)) :
    computeContentHash (addManagedMetadata content p) p =
      computeContentHash content p :=
  computeContentHash_add content p fm body hparse hwf hp hmd

/-- C3 witness: a concrete frontmattered skill document. -/
theorem C3_hash_ignores_managed_metadata_witness :
    computeContentHash (addManagedMetadata
      ["---".data, "name: a".data, "---".data, "body".data] "agent-conf".data)
      "agent-conf".data =
    computeContentHash ["---".data, "name: a".data, "---".data, "body".data]
      "agent-conf".data :=
  C3_hash_ignores_managed_metadata
    ["---".data, "name: a".data, "---".data, "body".data] "agent-conf".data
    [("name".data, YVal.vstr ['a'])] ["body".data]
    (by decide) (by decide) (by decide) (Or.inl (by decide))

set_option maxRecDepth 100000 in
/-- C4 counterexample: for frontmatter-less content, the second stamping
records a different content hash (the first stamp added a frontmatter
block that changes the stripped content), so stamping twice is not
byte-identical to stamping once, refuting the claim over every artifact
content. -/
theorem C4_add_managed_metadata_idempotent_counterexample :
    addManagedMetadata (addManagedMetadata
      ["# Just content".data, [], "No frontmatter here.".data] "agent-conf".data)
      "agent-conf".data ≠
    addManagedMetadata ["# Just content".data, [], "No frontmatter here.".data]
      "agent-conf".data := by decide

/-- C4 (amended): for every artifact content with a parseable frontmatter
block (serializable subset frontmatter whose metadata key is absent or a
map), stamping managed metadata twice yields byte-identical output to
stamping it once. -/
theorem C4_add_managed_metadata_idempotent (content : List Line) (p : Line)
    (fm : Frontmatter) (body : List Line)
    (hparse : parseFrontmatterLines content = some (fm, body))
    (hwf : wfFM fm) (hp : wfPfx p)
    (hmd : jsGet fm metadataKey = none ∨
      ∃ es, jsGet fm metadataKey = some (YVal.vmap es)) :
    addManagedMetadata (addManagedMetadata content p) p =
      addManagedMetadata content p :=
  add_add content p fm body hparse hwf hp hmd

/-- C4 witness: a concrete frontmattered skill document. -/
theorem C4_add_managed_metadata_idempotent_witness :
    addManagedMetadata (addManagedMetadata
      ["---".data, "name: a".data, "---".data, "body".data] "agent-conf".data)
      "agent-conf".data =
    addManagedMetadata ["---".data, "name: a".data, "---".data, "body".data]
      "agent-conf".data :=
  C4_add_managed_metadata_idempotent
    ["---".data, "name: a".data, "---".data, "body".data] "agent-conf".data
    [("name".data, YVal.vstr ['a'])] ["body".data]
    (by decide) (by decide) (by decide) (Or.inl (by decide))

theorem str_append_ne (p a b : String) (h : a.data ≠ b.data) : p ++ a ≠ p ++ b := by
  intro he
  apply h
  have hd := congrArg String.data he
  rw [String.data_append, String.data_append] at hd
  exact List.append_cancel_left hd

/-- C5: addAgentMetadata inserts or overwrites only the two reserved keys
under the metadata map; every other frontmatter field and every other
metadata entry keep their values, and the document body is appended
untouched after the serialized frontmatter. -/
theorem C5_add_agent_metadata_frame (agent : Agent) (metadataPfx : String)
    (fm : AgentFM) (es : List (String × String))
    (hfm : agent.frontmatter = some fm)
    (hnd : (fm.map Prod.fst).Nodup)
    (hmd : jsGet fm "metadata" = some (AVal.amap es) ∨
      (jsGet fm "metadata" = none ∧ es = [])) :
    (∀ k, k ≠ "metadata" → k ≠ "name" → k ≠ "description" →
      jsGet (addAgentMetadataFM agent metadataPfx) k = jsGet fm k) ∧
    (∀ v, jsGet fm "name" = some v →
      jsGet (addAgentMetadataFM agent metadataPfx) "name" = some v) ∧
    (∀ v, jsGet fm "description" = some v →
      jsGet (addAgentMetadataFM agent metadataPfx) "description" = some v) ∧
    (∃ es', jsGet (addAgentMetadataFM agent metadataPfx) "metadata" =
        some (AVal.amap es') ∧
      (∀ k, k ≠ metadataPfx ++ "_managed" → k ≠ metadataPfx ++ "_content_hash" →
        jsGet es' k = jsGet es k) ∧
      jsGet es' (metadataPfx ++ "_managed") = some "true" ∧
      jsGet es' (metadataPfx ++ "_content_hash") =
        some (computeContentHashStr agent.rawContent
          (String.mk (metadataPfx.data.map (fun c => if c = '_' then '-' else c))))) ∧
    addAgentMetadata agent metadataPfx =
      "---\n" ++ serializeFrontmatter (addAgentMetadataFM agent metadataPfx) ++
        "\n---\n" ++ agent.body := by
  have hmd' : (match jsGet fm "metadata" with
      | some (AVal.amap es) => es
      | _ => []) = es := by
    rcases hmd with h | ⟨h, he⟩
    · rw [h]
    · rw [h, he]
  have hkne : metadataPfx ++ "_managed" ≠ metadataPfx ++ "_content_hash" :=
    str_append_ne metadataPfx "_managed" "_content_hash" (by decide)
  have hfm1 : addAgentMetadataFM agent metadataPfx =
      jsSet (fm.foldl
        (fun acc kv => if kv.1 = "metadata" then acc else jsSet acc kv.1 kv.2)
        [("name", (jsGet fm "name").getD (AVal.astr "")),
         ("description", (jsGet fm "description").getD (AVal.astr ""))])
        "metadata" (AVal.amap (jsSet (jsSet es (metadataPfx ++ "_managed") "true")
          (metadataPfx ++ "_content_hash")
          (computeContentHashStr agent.rawContent
            (String.mk (metadataPfx.data.map (fun c => if c = '_' then '-' else c)))))) := by
    simp only [addAgentMetadataFM, hfm, Option.getD_some, hmd']
  refine ⟨?_, ?_, ?_, ?_, rfl⟩
  · intro k hk1 hk2 hk3
    rw [hfm1, jsGet_jsSet_ne _ _ _ _ hk1]
    rcases hget : jsGet fm k with _ | v
    · rw [fold_copy_get_of_not_mem fm _ k ((jsGet_eq_none_iff fm k).mp hget)]
      simp only [jsGet]
      rw [if_neg (fun he => hk2 he.symm), if_neg (fun he => hk3 he.symm)]
    · exact fold_copy_get_of_mem fm _ k v hnd (jsGet_mem fm k v hget) hk1
  · intro v hv
    rw [hfm1, jsGet_jsSet_ne _ _ _ _ (by decide)]
    exact fold_copy_get_of_mem fm _ "name" v hnd (jsGet_mem fm _ v hv) (by decide)
  · intro v hv
    rw [hfm1, jsGet_jsSet_ne _ _ _ _ (by decide)]
    exact fold_copy_get_of_mem fm _ "description" v hnd (jsGet_mem fm _ v hv) (by decide)
  · refine ⟨jsSet (jsSet es (metadataPfx ++ "_managed") "true")
      (metadataPfx ++ "_content_hash")
      (computeContentHashStr agent.rawContent
        (String.mk (metadataPfx.data.map (fun c => if c = '_' then '-' else c)))),
      ?_, ?_, ?_, ?_⟩
    · rw [hfm1]
      exact jsGet_jsSet_self _ _ _
    · intro k hk1 hk2
      rw [jsGet_jsSet_ne _ _ _ _ hk2, jsGet_jsSet_ne _ _ _ _ hk1]
    · rw [jsGet_jsSet_ne _ _ _ _ hkne]
      exact jsGet_jsSet_self _ _ _
    · exact jsGet_jsSet_self _ _ _

/-- C5 witness: a concrete agent with existing metadata and a tools
array. -/
theorem C5_add_agent_metadata_frame_witness :
    jsGet (addAgentMetadataFM
      { relativePath := "code-reviewer.md",
        rawContent := "---\nname: reviewer\n---\nReview code.",
        frontmatter := some [("name", AVal.astr "reviewer"),
          ("tools", AVal.aarr ["Read"]),
          ("metadata", AVal.amap [("author", "platform")])],
        body := "Review code." } "agconf") "tools" =
      some (AVal.aarr ["Read"]) :=
  (C5_add_agent_metadata_frame
    { relativePath := "code-reviewer.md",
      rawContent := "---\nname: reviewer\n---\nReview code.",
      frontmatter := some [("name", AVal.astr "reviewer"),
        ("tools", AVal.aarr ["Read"]),
        ("metadata", AVal.amap [("author", "platform")])],
      body := "Review code." } "agconf"
    [("name", AVal.astr "reviewer"), ("tools", AVal.aarr ["Read"]),
     ("metadata", AVal.amap [("author", "platform")])]
    [("author", "platform")] rfl (by decide) (Or.inl (by decide))).1
    "tools" (by decide) (by decide) (by decide) |>.trans (by decide)

/-- C6: checkCliVersionMismatch returns a mismatch exactly when a lockfile
exists, both version strings are non-empty and the lockfile version is
triplet-wise strictly greater than the current version with missing
components treated as 0; it returns null otherwise, in particular when
versions are equal, when the current version is newer, or when no
lockfile exists. -/
theorem C6_version_mismatch_characterization (lockfile : Option Lockfile)
    (currentVersion : String) :
    checkCliVersionMismatch lockfile currentVersion =
      match lockfile with
      | none => none
      | some lf =>
        if currentVersion ≠ "" ∧ lf.cli_version ≠ "" ∧
            verTripletGT lf.cli_version currentVersion then
          some ⟨currentVersion, lf.cli_version⟩
        else none := by
  cases lockfile with
  | none => rfl
  | some lf =>
    simp only [checkCliVersionMismatch, verTripletGT]
    by_cases hc : currentVersion = ""
    · simp [hc]
    · by_cases hl : lf.cli_version = ""
      · simp [hc, hl]
      · rw [if_neg (by simp [hc, hl])]
        simp only [hc, hl, ne_eq, not_false_iff, true_and]
        split_ifs <;> first | rfl | (exfalso; omega)

/-- C7: readLockfile returns null exactly on a missing file (ENOENT),
propagates every other failure including JSON syntax errors and schema
validation errors, and any lockfile it returns comes from a successful
schema validation. -/
theorem C7_read_lockfile_errors (fs : FsReadOutcome) :
    (readLockfile fs = Except.ok none ↔ fs = FsReadOutcome.enoent) ∧
    (∀ m, readLockfile (FsReadOutcome.ioError m) =
      Except.error (LockfileError.ioError m)) ∧
    (readLockfile (FsReadOutcome.found none) =
      Except.error LockfileError.syntaxError) ∧
    (∀ j m, parseLockfileJson j = Except.error m →
      readLockfile (FsReadOutcome.found (some j)) =
        Except.error (LockfileError.schemaError m)) ∧
    (∀ lf, readLockfile fs = Except.ok (some lf) →
      ∃ j, fs = FsReadOutcome.found (some j) ∧ parseLockfileJson j = Except.ok lf) := by
  refine ⟨?_, fun m => rfl, rfl, ?_, ?_⟩
  · cases fs with
    | enoent => simp [readLockfile]
    | ioError m => simp [readLockfile]
    | found parsed =>
      cases parsed with
      | none => simp [readLockfile]
      | some j =>
        simp only [readLockfile]
        cases hp : parseLockfileJson j <;> simp
  · intro j m hp
    simp [readLockfile, hp]
  · intro lf hlf
    cases fs with
    | enoent => simp [readLockfile] at hlf
    | ioError m => simp [readLockfile] at hlf
    | found parsed =>
      cases parsed with
      | none => simp [readLockfile] at hlf
      | some j =>
        simp only [readLockfile] at hlf
        cases hp : parseLockfileJson j with
        | error m => rw [hp] at hlf; simp at hlf
        | ok lf' =>
          rw [hp] at hlf
          simp only [Except.ok.injEq, Option.some.injEq] at hlf
          exact ⟨j, rfl, by rw [hp, hlf]⟩

/-- C7 witness: the missing-file read yields a null lockfile. -/
theorem C7_read_lockfile_errors_witness :
    readLockfile FsReadOutcome.enoent = Except.ok none :=
  (C7_read_lockfile_errors FsReadOutcome.enoent).1.mpr rfl

/-- C8: explicit-path local resolution fails exactly when the canonical
instructions file or the skills directory is missing, with the
InvalidSource message naming the missing part, and otherwise succeeds
with the commit sha opportunistically recorded: a git failure only leaves
the commit sha unset. -/
theorem C8_resolve_local_source (fs : LocalRepoFs) (path : String) :
    ((∃ e, resolveLocalSource fs path = Except.error e) ↔
      (fs.agentsMdExists = false ∨ fs.skillsExists = false)) ∧
    (fs.agentsMdExists = true → fs.skillsExists = true →
      resolveLocalSource fs path = Except.ok
        { source := Source.localSrc path fs.gitLatestSha, basePath := path,
          agentsMdPath := path ++ "/instructions/AGENTS.md",
          skillsPath := path ++ "/skills" }) ∧
    (fs.agentsMdExists = false →
      resolveLocalSource fs path = Except.error
        ("Invalid canonical repository: missing instructions/AGENTS.md at " ++ path)) ∧
    (fs.agentsMdExists = true → fs.skillsExists = false →
      resolveLocalSource fs path = Except.error
        ("Invalid canonical repository: missing skills/ directory at " ++ path)) := by
  rcases fs with ⟨a, s, g⟩
  cases a <;> cases s <;>
    simp [resolveLocalSource, validateCanonicalRepo]

/-- C8 witness: a repository with both canonical files and an available
git sha resolves successfully and records the sha. -/
theorem C8_resolve_local_source_witness :
    resolveLocalSource ⟨true, true, some "0123456789abcdef"⟩ "/repo" = Except.ok
      { source := Source.localSrc "/repo" (some "0123456789abcdef"),
        basePath := "/repo",
        agentsMdPath := "/repo" ++ "/instructions/AGENTS.md",
        skillsPath := "/repo" ++ "/skills" } :=
  (C8_resolve_local_source ⟨true, true, some "0123456789abcdef"⟩ "/repo").2.1 rfl rfl

/-- C9: the static registry has at least two built-in targets; claude
carries the CLAUDE.md adapter instructions file whose content is the
inclusion directive referencing the root instructions document, and codex
carries no adapter instructions file because it reads the root document
directly. -/
theorem C9_target_registry :
    2 ≤ SUPPORTED_TARGETS.length ∧
    TARGET_CONFIGS TargetName.claude =
      { dir := ".claude", instructionsFile := some "CLAUDE.md" } ∧
    TARGET_CONFIGS TargetName.codex = { dir := ".codex", instructionsFile := none } ∧
    claudeTarget.name = "claude" ∧
    claudeTarget.config.instructionsFile = some "CLAUDE.md" ∧
    claudeTarget.config.instructionsContent = some ("@../" ++ rootInstructionsDoc) ∧
    codexTarget.name = "codex" ∧
    codexTarget.config.instructionsFile = none ∧
    codexTarget.config.instructionsContent = none :=
  ⟨by decide, rfl, rfl, rfl, rfl, by decide, rfl, rfl, rfl⟩

/-- C10: the two independent formatSourceString implementations agree on
every source, and both render github sources as github:repository@sha7,
local sources with a sha as local:path@sha7, and other local sources as
local:path. -/
theorem C10_format_source_string_equivalent (s : Source) :
    formatSourceStringCore s = formatSourceStringPlugins s ∧
    formatSourceStringCore s = claimedSourceFormat s := by
  cases s with
  | github r c ref => exact ⟨rfl, rfl⟩
  | localSrc p c =>
    cases c with
    | none => exact ⟨rfl, rfl⟩
    | some sha =>
      by_cases h : sha = "" <;>
        simp [formatSourceStringCore, formatSourceStringPlugins, claimedSourceFormat, h]

end Agconf
